import Mathlib

/-!
Verification of the duplicate-image detection and cleanup engine in
`src/images/clear_img.py` (class `DuplicateImageCleaner`).

The Python code is shallowly embedded as follows.

* File paths are `String`s (`Path`).
* The environment `Env` packages the per-file oracles that the Python code
  obtains from the filesystem and the imaging library:
  `hash` models `calculate_file_hash` (MD5 hex digest, `none` = the
  `except` branch returning `None`); `meta` models `get_image_metadata`
  (`none` = failure); `img` models `Image.open` + full decode inside
  `are_images_identical` (`none` = a decode exception); `cvt` models
  `PIL.Image.convert` on the raw pixel data — conversion keeps the pixel
  count/size and retags the mode, transforming pixel values by `cvt`.
* Python `dict` grouping (`defaultdict(list)` keyed by hash or by
  `(dimensions, size)`) is embedded as an association list built in
  insertion order (`buildGroups`), exactly the iteration order of a
  CPython dict.
* The concurrent `as_completed` loop in `find_duplicates_by_hash` delivers
  results in a nondeterministic arrival order; this order is the explicit
  `arrival` argument (a permutation of the scanned file list).
* Python's stable `list.sort(key=(-size, created))` in `select_kept_file`
  is embedded as a stable insertion sort `sortS` with the corresponding
  strict order; a stable sort's output is uniquely determined by the key
  order, so this is extensionally the sort Python performs.
  `float('inf')` sentinels become `⊤ : WithTop Nat`.
* The filesystem mutated by `cleanup_duplicates` is `FS : Path → Option FSFile`
  (directories are implicit; `mkdir` is a no-op in this flat model).
  `shutil.copy2` copies the whole file record.  Exceptions raised by the
  backup step (`mkdir`+`copy2`) and by `unlink` are modelled by the
  oracles `copyFails` / `unlinkFails`; an exception leaves the step's
  mutation undone and is caught by the per-file `try/except`.
-/

namespace ClearImg

abbrev Path := String

/-- Result record of `get_image_metadata` (line 94): file size, pixel
dimensions, creation/modification timestamps and format tag. -/
structure Metadata where
  size : Nat
  dims : Nat × Nat
  created : Nat
  modified : Nat
  format : String
deriving DecidableEq, Repr

/-- A decoded image as used inside `are_images_identical`: PIL mode tag,
pixel size, and raw pixel data. -/
structure ImgData where
  mode : String
  isize : Nat × Nat
  pix : List Nat
deriving DecidableEq, Repr

/-- Per-file oracles of the Python environment (filesystem + PIL). -/
structure Env where
  hash : Path → Option String
  meta : Path → Option Metadata
  img : Path → Option ImgData
  cvt : String → List Nat → List Nat

/-- Models `img2.convert(img1.mode)` guarded by the mode check of line 134:
conversion retags the mode, keeps the pixel size, and transforms the
pixel values by the library's conversion `env.cvt`. -/
def convertTo (env : Env) (target : String) (img : ImgData) : ImgData :=
  if img.mode ≠ target then ⟨target, img.isize, env.cvt target img.pix⟩ else img

/-- Embeds `are_images_identical` (lines 114-148).  Checks, in order with early
return: metadata byte size, metadata dimensions, equality of the two MD5
digests when both are computed (Python truthiness: a `None` digest fails
the `hash1 and hash2` guard), then the pixel comparison: decode both
(`none` models the decode exception caught at line 145, returning
`False`), convert the second image to the first's mode when they differ,
compare decoded sizes, and finally `ImageChops.difference(...).getbbox()`
is `None` iff the pixel data coincide. -/
def are_images_identical (env : Env) (img1_path img2_path : Path)
    (metadata1 metadata2 : Metadata) : Bool :=
  if metadata1.size ≠ metadata2.size then false
  else if metadata1.dims ≠ metadata2.dims then false
  else
    let hash1 := env.hash img1_path
    let hash2 := env.hash img2_path
    let hashEqual : Bool := match hash1, hash2 with
      | some h1, some h2 => h1 == h2
      | _, _ => false
    if hashEqual then true
    else
      match env.img img1_path, env.img img2_path with
      | some i1, some i2 =>
        let i2c := convertTo env i1.mode i2
        if i1.isize ≠ i2c.isize then false
        else if i1.pix = i2c.pix then true
        else false
      | _, _ => false

/-- Append `f` to the entry of key `k`, or create the entry at the end:
the effect of `hash_groups[k].append(f)` on a `defaultdict(list)`,
remembering dict insertion order. -/
def addToGroups {κ : Type} [DecidableEq κ] (k : κ) (f : Path) :
    List (κ × List Path) → List (κ × List Path)
  | [] => [(k, [f])]
  | (k', fs) :: rest =>
      if k' = k then (k', fs ++ [f]) :: rest else (k', fs) :: addToGroups k f rest

/-- Build the grouping dict by folding the files in processing order,
skipping files whose key computation failed (`if file_hash:` / files
missing from `metadata_dict`). -/
def buildGroups {κ : Type} [DecidableEq κ] (key : Path → Option κ)
    (l : List Path) : List (κ × List Path) :=
  l.foldl (fun acc f => match key f with
    | some k => addToGroups k f acc
    | none => acc) []

/-- Embeds `find_duplicates_by_hash` (lines 150-174): group by MD5 digest in
arrival order of the worker-pool results, keep groups with ≥2 files. -/
def find_duplicates_by_hash (env : Env) (arrival : List Path) :
    List (String × List Path) :=
  (buildGroups env.hash arrival).filter (fun p => p.2.length > 1)

/-- The `(dimensions, size)` key of `find_duplicates_by_metadata`
(line 190), defined for files whose metadata extraction succeeded. -/
def metaKey (env : Env) (f : Path) : Option ((Nat × Nat) × Nat) :=
  (env.meta f).map (fun m => (m.dims, m.size))

/-- Embeds `find_duplicates_by_metadata` (lines 176-197): group files with
successful metadata by `(dimensions, size)` in scan order, keep groups
with ≥2 files.  (The returned `metadata_dict` is available as `env.meta`.) -/
def find_duplicates_by_metadata (env : Env) (image_files : List Path) :
    List (((Nat × Nat) × Nat) × List Path) :=
  (buildGroups (metaKey env) image_files).filter (fun p => p.2.length > 1)

/-- One duplicate group as built by `find_duplicate_groups` /
`verify_size_duplicates`: the `{'type': ..., 'files': ..., 'count': ...}`
dict. -/
structure Group where
  type : String
  files : List Path
  count : Nat
deriving DecidableEq, Repr

/-- Models `metadata_dict.get(f)` as used by `verify_size_duplicates`; in the
pipeline every file reaching it has metadata, so the default is inert. -/
def mdOf (env : Env) (f : Path) : Metadata :=
  (env.meta f).getD ⟨0, (0, 0), 0, 0, ""⟩

/-- The identity test `verify_size_duplicates` applies to a candidate
pair (line 257): `are_images_identical` on the files' metadata entries. -/
def identEnv (env : Env) (f1 f2 : Path) : Bool :=
  are_images_identical env f1 f2 (mdOf env f1) (mdOf env f2)

/-- Inner loop of `verify_size_duplicates` (lines 252-263): scan the
files after the representative `f1`, skip already-processed ones, and
collect (in order) those verified identical to `f1`, marking each as
processed.  Returns the collected members and the updated processed set. -/
def collectMatches (ident : Path → Path → Bool) (f1 : Path) :
    List Path → List Path → List Path × List Path
  | [], proc => ([], proc)
  | f2 :: rest, proc =>
    if f2 ∈ proc then collectMatches ident f1 rest proc
    else if ident f1 f2 then
      let r := collectMatches ident f1 rest (proc ++ [f2])
      (f2 :: r.1, r.2)
    else collectMatches ident f1 rest proc

/-- Outer loop of `verify_size_duplicates` (lines 245-271): each
unprocessed file starts a group; the group is emitted (type
`exact_content`) only when it gained at least one member, in which case
the representative is also marked processed. -/
def verifyAux (ident : Path → Path → Bool) :
    List Path → List Path → List Group × List Path
  | [], proc => ([], proc)
  | f1 :: rest, proc =>
    if f1 ∈ proc then verifyAux ident rest proc
    else
      let c := collectMatches ident f1 rest proc
      if c.1.length + 1 > 1 then
        let r := verifyAux ident rest (c.2 ++ [f1])
        (⟨"exact_content", f1 :: c.1, c.1.length + 1⟩ :: r.1, r.2)
      else verifyAux ident rest c.2

/-- Embeds `verify_size_duplicates` (lines 240-273), with its local `processed`
set starting empty. -/
def verify_size_duplicates (env : Env) (files : List Path) : List Group :=
  (verifyAux (identEnv env) files []).1

/-- First merge loop of `find_duplicate_groups` (lines 212-219): accept a
hash group only when none of its files is already claimed, then claim
them all. -/
def hashLoop : List (String × List Path) → List Group → List Path →
    List Group × List Path
  | [], gs, proc => (gs, proc)
  | (_, files) :: rest, gs, proc =>
    if files.any (fun f => decide (f ∈ proc)) then hashLoop rest gs proc
    else hashLoop rest (gs ++ [⟨"exact_hash", files, files.length⟩]) (proc ++ files)

/-- Collects `group['files']` flattened over a group list, as done by the
`processed_files.update(group['files'])` loop (lines 230-231). -/
def flatFiles (gs : List Group) : List Path :=
  gs.foldl (fun acc g => acc ++ g.files) []

/-- Second merge loop of `find_duplicate_groups` (lines 222-231): drop
claimed files from each metadata group, pixel-verify the remainder when
at least two files survive, append the verified groups and claim their
files. -/
def sizeLoop (env : Env) : List (((Nat × Nat) × Nat) × List Path) →
    List Group → List Path → List Group × List Path
  | [], gs, proc => (gs, proc)
  | (_, files) :: rest, gs, proc =>
    let remaining := files.filter (fun f => !(decide (f ∈ proc)))
    if remaining.length > 1 then
      let vgs := verify_size_duplicates env remaining
      sizeLoop env rest (gs ++ vgs) (proc ++ flatFiles vgs)
    else sizeLoop env rest gs proc

/-- Embeds `find_duplicate_groups` (lines 199-238): hash tier first, then the
metadata tier over unclaimed files.  `image_files` is the scan order,
`arrival` the worker-pool completion order of the hash computations. -/
def find_duplicate_groups (env : Env) (image_files arrival : List Path) :
    List Group :=
  let hash_duplicates := find_duplicates_by_hash env arrival
  let size_duplicates := find_duplicates_by_metadata env image_files
  let r1 := hashLoop hash_duplicates [] []
  (sizeLoop env size_duplicates r1.1 r1.2).1

/-- Models the `os.stat` result as consumed by `select_kept_file` and the size
accounting of `cleanup_duplicates`. -/
structure StatInfo where
  size : Nat
  ctime : Nat
  mtime : Nat
deriving DecidableEq, Repr

/-- One entry of the `file_info` list of `select_kept_file`
(lines 281-298); a failed `stat` yields size `0` and timestamps
`float('inf')` (here `⊤`). -/
structure FileRec where
  path : Path
  size : Nat
  created : WithTop Nat
  modified : WithTop Nat
deriving DecidableEq, Repr

/-- Build a `file_info` entry for one path (lines 283-298). -/
def mkRec (stat : Path → Option StatInfo) (p : Path) : FileRec :=
  match stat p with
  | some s => ⟨p, s.size, (s.ctime : Nat), (s.mtime : Nat)⟩
  | none => ⟨p, 0, ⊤, ⊤⟩

/-- The strict order under which Python's stable ascending sort with key
`(-size, created)` places `a` strictly before `b`. -/
def sortLt (a b : FileRec) : Prop :=
  b.size < a.size ∨ (a.size = b.size ∧ a.created < b.created)

instance : DecidableRel sortLt := fun a b => by
  unfold sortLt; infer_instance

/-- Stable insertion into a sorted list: `x` passes every element
strictly below it and stops before the first element not strictly below
it (so existing equal-key elements keep their earlier position). -/
def insertS {α : Type} (lt : α → α → Prop) [DecidableRel lt] (x : α) :
    List α → List α
  | [] => [x]
  | y :: ys => if lt y x then y :: insertS lt x ys else x :: y :: ys

/-- Stable insertion sort; extensionally the stable ascending sort that
Python's `list.sort` performs for the given strict key order. -/
def sortS {α : Type} (lt : α → α → Prop) [DecidableRel lt] :
    List α → List α
  | [] => []
  | x :: xs => insertS lt x (sortS lt xs)

/-- Embeds `select_kept_file` (lines 275-302): `None` on an empty group;
otherwise build the `file_info` entries, sort them stably by
`(-size, created)` and return the first path. -/
def select_kept_file (stat : Path → Option StatInfo) (file_group : List Path) :
    Option Path :=
  if file_group = [] then none
  else
    let file_info := file_group.map (mkRec stat)
    ((sortS sortLt file_info).head?).map FileRec.path

/-- On-disk state of one file: byte content plus the stat fields the
code reads.  `shutil.copy2` duplicates the whole record. -/
structure FSFile where
  content : List Nat
  size : Nat
  ctime : Nat
  mtime : Nat
deriving DecidableEq, Repr

/-- The filesystem: paths to file records (directories implicit). -/
abbrev FS := Path → Option FSFile

/-- Models `Path.stat()` against a filesystem state. -/
def statOf (fs : FS) (p : Path) : Option StatInfo :=
  (fs p).map (fun d => ⟨d.size, d.ctime, d.mtime⟩)

/-- The per-file `try` block of `cleanup_duplicates` (lines 360-373) in
apply mode: with a backup root, mirror-copy the file (an exception —
missing source or `copyFails` — leaves the filesystem unchanged and skips
the deletion), then `unlink` it (an exception leaves the file in place);
without a backup root, just `unlink`.  `bk` maps a source path to its
mirrored backup path. -/
def applyRemoval (bk? : Option (Path → Path)) (copyFails unlinkFails : Path → Bool)
    (fs : FS) (f : Path) : FS :=
  match bk? with
  | some bk =>
    match fs f with
    | none => fs
    | some d =>
      if copyFails f then fs
      else
        let fs1 : FS := fun p => if p = bk f then some d else fs p
        if unlinkFails f then fs1
        else fun p => if p = f then none else fs1 p
  | none =>
    match fs f with
    | none => fs
    | some _ =>
      if unlinkFails f then fs
      else fun p => if p = f then none else fs p

/-- The `cleanup_stats` dict (lines 317-323). -/
structure CleanupStats where
  total_groups : Nat
  total_duplicates : Nat
  space_to_save : Nat
  kept_files : List Path
  removed_files : List Path
deriving DecidableEq, Repr

/-- Size a file contributes to `space_to_save` (lines 341-346): its
current size, or nothing when `stat` raises (file absent). -/
def sizeAt (fs : FS) (f : Path) : Nat :=
  match fs f with
  | some d => d.size
  | none => 0

/-- Body of the per-group loop of `cleanup_duplicates` (lines 326-373):
pick the kept file (an empty group yields `None` and is skipped), account
the sizes of the files to remove against the current filesystem, record
the plan in the stats, and — unless this is a dry run — back up and
delete each file in order. -/
def processGroup (dryRun : Bool) (bk? : Option (Path → Path))
    (copyFails unlinkFails : Path → Bool) (st : CleanupStats × FS)
    (g : Group) : CleanupStats × FS :=
  match select_kept_file (statOf st.2) g.files with
  | none => st
  | some kept =>
    let files_to_remove := g.files.filter (fun f => f ≠ kept)
    let space := (files_to_remove.map (sizeAt st.2)).sum
    let stats' : CleanupStats :=
      { st.1 with
        total_duplicates := st.1.total_duplicates + files_to_remove.length
        space_to_save := st.1.space_to_save + space
        kept_files := st.1.kept_files ++ [kept]
        removed_files := st.1.removed_files ++ files_to_remove }
    let fs' := if dryRun then st.2
      else files_to_remove.foldl (applyRemoval bk? copyFails unlinkFails) st.2
    (stats', fs')

/-- Embeds `cleanup_duplicates` (lines 304-378): fold the groups over the
initial statistics and filesystem state. -/
def cleanup_duplicates (dryRun : Bool) (bk? : Option (Path → Path))
    (copyFails unlinkFails : Path → Bool) (fs0 : FS) (groups : List Group) :
    CleanupStats × FS :=
  groups.foldl (processGroup dryRun bk? copyFails unlinkFails)
    (⟨groups.length, 0, 0, [], []⟩, fs0)

/-- The kept file of a group as planned against a fixed filesystem. -/
def keptOf (fs : FS) (g : Group) : Option Path :=
  select_kept_file (statOf fs) g.files

/-- The files `cleanup_duplicates` selects for removal in a group,
against a fixed filesystem. -/
def removalsOf (fs : FS) (g : Group) : List Path :=
  match keptOf fs g with
  | some k => g.files.filter (fun f => f ≠ k)
  | none => []

/-- The `exact_hash` group built from one hash-dict entry (lines 214-218). -/
def toHashGroup (e : String × List Path) : Group :=
  ⟨"exact_hash", e.2, e.2.length⟩

/-- Projected reclaimed bytes of one group against a fixed filesystem:
the sum of the current sizes of its non-kept files. -/
def groupSpace (fs : FS) (g : Group) : Nat :=
  ((removalsOf fs g).map (sizeAt fs)).sum

/-- The non-strict counterpart of `sortLt`: `a` is not placed strictly
after `b` by the sort — `a`'s key `(-size, created)` is ≤ `b`'s. -/
def sortLe (a b : FileRec) : Prop := ¬ sortLt b a

instance : DecidableRel sortLe := fun a b => by
  unfold sortLe; infer_instance

/-- Association-list lookup for reasoning about `buildGroups`. -/
def lookG {κ : Type} [DecidableEq κ] (k : κ) :
    List (κ × List Path) → Option (List Path)
  | [] => none
  | (k', fs) :: rest => if k' = k then some fs else lookG k rest

/-- All member files of a list of groups. -/
def allFiles (gs : List Group) : List Path :=
  (gs.map Group.files).flatten

/-- Two groups have no file in common. -/
def disjGroups (g1 g2 : Group) : Prop := ∀ f ∈ g1.files, f ∉ g2.files

instance : DecidableRel disjGroups := fun g1 g2 => by
  unfold disjGroups; infer_instance

/-! ### Concrete test environments

Closed instances used by the counterexample and witness theorems below. -/

/-- Two pairs of byte-identical files (`a1`,`a2` share one digest,
`b1`,`b2` another); metadata extraction fails everywhere, so only the
hash tier acts. -/
def fxEnvTwoHash : Env :=
  { hash := fun p =>
      if p = "a1" ∨ p = "a2" then some "h1"
      else if p = "b1" ∨ p = "b2" then some "h2" else none
    meta := fun _ => none
    img := fun _ => none
    cvt := fun _ px => px }

/-- Files `a`,`b` share a digest; `c`'s digest computation fails but `c` and
`d` have the same metadata key and identical pixel content. -/
def fxEnvMixed : Env :=
  { hash := fun p =>
      if p = "a" ∨ p = "b" then some "h"
      else if p = "d" then some "hd" else none
    meta := fun p =>
      if p = "a" ∨ p = "b" then some ⟨1, (1, 1), 0, 0, "PNG"⟩
      else if p = "c" ∨ p = "d" then some ⟨2, (2, 2), 0, 0, "PNG"⟩
      else none
    img := fun p =>
      if p = "c" ∨ p = "d" then some ⟨"RGB", (2, 2), [7]⟩ else none
    cvt := fun _ px => px }

/-- Every file hashes to the same digest; nothing decodes. -/
def fxEnvHashOnly : Env :=
  { hash := fun _ => some "h"
    meta := fun _ => none
    img := fun _ => none
    cvt := fun _ px => px }

/-- Every path stats identically: a full tie on size and timestamps. -/
def fxStatTie : Path → Option StatInfo := fun _ => some ⟨5, 5, 5⟩

/-- Path `a` stats with distinct sizes from everything else. -/
def fxStatDistinct : Path → Option StatInfo := fun p =>
  if p = "a" then some ⟨2, 1, 1⟩ else some ⟨1, 1, 1⟩

/-- Only `a` is statable. -/
def fxStatMixed : Path → Option StatInfo := fun p =>
  if p = "a" then some ⟨1, 1, 1⟩ else none

/-- A filesystem holding `a` (7 bytes) and `b` (5 bytes). -/
def fxFS : FS := fun p =>
  if p = "a" then some ⟨[1], 7, 1, 1⟩
  else if p = "b" then some ⟨[2], 5, 2, 2⟩ else none

/-- The duplicate group `{a, b}`. -/
def fxGroupAB : Group := ⟨"exact_hash", ["a", "b"], 2⟩

/-- A backup mirroring map sending `p` to `B/p`. -/
def fxBk : Path → Path := fun p => "B/" ++ p

end ClearImg

namespace ClearImg

/-! ### Insertion sort: membership, sortedness, stability facts -/

theorem mem_insertS {α : Type} (lt : α → α → Prop) [DecidableRel lt] (x a : α)
    (l : List α) : a ∈ insertS lt x l ↔ a = x ∨ a ∈ l := by
  induction l with
  | nil => simp [insertS]
  | cons y ys ih =>
    by_cases h : lt y x <;> simp only [insertS, h, if_true, if_false,
      List.mem_cons, ih] <;> tauto

theorem mem_sortS {α : Type} (lt : α → α → Prop) [DecidableRel lt] (a : α)
    (l : List α) : a ∈ sortS lt l ↔ a ∈ l := by
  induction l with
  | nil => simp [sortS]
  | cons x xs ih => simp [sortS, mem_insertS, ih]

theorem insertS_ne_nil {α : Type} (lt : α → α → Prop) [DecidableRel lt] (x : α)
    (l : List α) : insertS lt x l ≠ [] := by
  cases l with
  | nil => simp [insertS]
  | cons y ys => by_cases h : lt y x <;> simp [insertS, h]

theorem sortS_ne_nil {α : Type} (lt : α → α → Prop) [DecidableRel lt]
    (l : List α) (h : l ≠ []) : sortS lt l ≠ [] := by
  cases l with
  | nil => exact absurd rfl h
  | cons x xs => exact insertS_ne_nil lt x (sortS lt xs)

theorem sortLt_asymm {a b : FileRec} (h : sortLt a b) : ¬ sortLt b a := by
  intro h'
  rcases h with h | ⟨hs, hc⟩ <;> rcases h' with h' | ⟨hs', hc'⟩
  · omega
  · omega
  · omega
  · exact lt_asymm hc hc'

theorem sortLe_refl (a : FileRec) : sortLe a a := by
  intro h
  rcases h with h | ⟨_, h⟩
  · omega
  · exact lt_irrefl _ h

theorem sortLe_trans {a b c : FileRec} (hab : sortLe a b) (hbc : sortLe b c) :
    sortLe a c := by
  unfold sortLe sortLt at *
  push_neg at *
  refine ⟨by omega, fun hs => ?_⟩
  have h1 : b.size = a.size := by omega
  have h2 : c.size = b.size := by omega
  exact le_trans (hab.2 h1) (hbc.2 h2)

theorem pairwise_insertS (x : FileRec) (l : List FileRec)
    (h : l.Pairwise sortLe) : (insertS sortLt x l).Pairwise sortLe := by
  induction l with
  | nil => simp [insertS]
  | cons y ys ih =>
    rcases List.pairwise_cons.mp h with ⟨hy, hys⟩
    by_cases hxy : sortLt y x
    · simp only [insertS, if_pos hxy]
      refine List.pairwise_cons.mpr ⟨?_, ih hys⟩
      intro z hz
      rcases (mem_insertS _ _ _ _).mp hz with rfl | hz'
      · exact fun hlt => sortLt_asymm hxy hlt
      · exact hy z hz'
    · simp only [insertS, if_neg hxy]
      refine List.pairwise_cons.mpr ⟨?_, h⟩
      intro z hz
      rcases List.mem_cons.mp hz with rfl | hz'
      · exact hxy
      · exact sortLe_trans hxy (hy z hz')

theorem pairwise_sortS (l : List FileRec) :
    (sortS sortLt l).Pairwise sortLe := by
  induction l with
  | nil => simp [sortS]
  | cons x xs ih => exact pairwise_insertS x _ ih

theorem mkRec_path (stat : Path → Option StatInfo) (p : Path) :
    (mkRec stat p).path = p := by
  unfold mkRec
  cases stat p <;> rfl

/-- Lemma: `select_kept_file` on a non-empty group returns a member whose sort
key `(-size, created)` is minimal among all members. -/
theorem select_kept_file_spec (stat : Path → Option StatInfo)
    (g : List Path) (hg : g ≠ []) :
    ∃ p, select_kept_file stat g = some p ∧ p ∈ g ∧
      ∀ q ∈ g, sortLe (mkRec stat p) (mkRec stat q) := by
  unfold select_kept_file
  rw [if_neg hg]
  have hfne : g.map (mkRec stat) ≠ [] := by
    simpa using hg
  have hsne : sortS sortLt (g.map (mkRec stat)) ≠ [] := sortS_ne_nil _ _ hfne
  obtain ⟨r, rs, hr⟩ := List.exists_cons_of_ne_nil hsne
  have hrmem : r ∈ sortS sortLt (g.map (mkRec stat)) := by
    rw [hr]; exact List.mem_cons_self r rs
  obtain ⟨p, hpg, hpr⟩ := List.mem_map.mp ((mem_sortS _ _ _).mp hrmem)
  refine ⟨p, ?_, hpg, ?_⟩
  · show Option.map FileRec.path (sortS sortLt (g.map (mkRec stat))).head? = some p
    rw [hr]
    simp [← hpr, mkRec_path]
  · intro q hq
    have hqmem : mkRec stat q ∈ sortS sortLt (g.map (mkRec stat)) :=
      (mem_sortS _ _ _).mpr (List.mem_map.mpr ⟨q, hq, rfl⟩)
    rw [hr] at hqmem
    rcases List.mem_cons.mp hqmem with heq | hmem
    · rw [hpr, heq]
      exact sortLe_refl _
    · have hpw := pairwise_sortS (g.map (mkRec stat))
      rw [hr] at hpw
      rw [hpr]
      exact (List.pairwise_cons.mp hpw).1 _ hmem

end ClearImg

namespace ClearImg

/-! ### C6 / C7: retention policy -/

/-- C6: for every non-empty group, `select_kept_file` succeeds and
returns a member with the largest recorded byte size, ties broken by the
earliest recorded creation time; a member whose `stat` fails is recorded
with size `0` and creation time `⊤`, and whenever any member is statable
the selected member is statable. -/
theorem select_kept_file_largest_earliest (stat : Path → Option StatInfo)
    (g : List Path) (hg : g ≠ []) :
    ∃ p, select_kept_file stat g = some p ∧ p ∈ g ∧
      (∀ q ∈ g, (mkRec stat q).size ≤ (mkRec stat p).size) ∧
      (∀ q ∈ g, (mkRec stat q).size = (mkRec stat p).size →
        (mkRec stat p).created ≤ (mkRec stat q).created) ∧
      ((∃ q ∈ g, (stat q).isSome) → (stat p).isSome) ∧
      (∀ q, stat q = none → mkRec stat q = ⟨q, 0, ⊤, ⊤⟩) := by
  obtain ⟨p, hsel, hmem, hmin⟩ := select_kept_file_spec stat g hg
  have hsize : ∀ q ∈ g, (mkRec stat q).size ≤ (mkRec stat p).size := by
    intro q hq
    have h := hmin q hq
    unfold sortLe sortLt at h
    push_neg at h
    exact h.1
  have hcreated : ∀ q ∈ g, (mkRec stat q).size = (mkRec stat p).size →
      (mkRec stat p).created ≤ (mkRec stat q).created := by
    intro q hq hs
    have h := hmin q hq
    unfold sortLe sortLt at h
    push_neg at h
    exact h.2 hs
  refine ⟨p, hsel, hmem, hsize, hcreated, ?_, ?_⟩
  · rintro ⟨q, hq, hqs⟩
    by_contra hps
    have hpnone : stat p = none := Option.not_isSome_iff_eq_none.mp hps
    obtain ⟨s, hqsome⟩ := Option.isSome_iff_exists.mp hqs
    have hrp : mkRec stat p = ⟨p, 0, ⊤, ⊤⟩ := by unfold mkRec; rw [hpnone]
    have hrq : mkRec stat q = ⟨q, s.size, (s.ctime : Nat), (s.mtime : Nat)⟩ := by
      unfold mkRec; rw [hqsome]
    have h1 := hsize q hq
    rw [hrp, hrq] at h1
    simp only at h1
    have h2 := hcreated q hq (by rw [hrp, hrq]; simp only; omega)
    rw [hrp, hrq] at h2
    simp only at h2
    exact absurd (lt_of_lt_of_le (WithTop.coe_lt_top (s.ctime : Nat)) h2)
      (lt_irrefl _)
  · intro q hq
    unfold mkRec
    rw [hq]

/-- Witness for C6: in the group `[x, a]` where only `a` is statable, a
keeper is selected and it is statable. -/
theorem select_kept_file_largest_earliest_witness :
    (["x", "a"] : List Path) ≠ [] ∧
      ∃ p, select_kept_file fxStatMixed ["x", "a"] = some p ∧
        (fxStatMixed p).isSome := by
  refine ⟨by decide, ?_⟩
  obtain ⟨p, h1, _, _, _, h5, _⟩ :=
    select_kept_file_largest_earliest fxStatMixed ["x", "a"] (by decide)
  exact ⟨p, h1, h5 ⟨"a", by decide, by decide⟩⟩

/-- Counterexample for C7: with a full tie on byte size and creation
time, the two orderings of the same two-member set select different
files, so `select_kept_file` is not determined by the unordered member
set. -/
theorem select_kept_file_tie_not_order_free :
    (["a", "b"] : List Path).Perm ["b", "a"] ∧
      select_kept_file fxStatTie ["a", "b"] ≠
        select_kept_file fxStatTie ["b", "a"] :=
  ⟨List.Perm.swap "b" "a" [], by decide⟩

/-- C7 (amended): `select_kept_file` returns the same file on any two
permutations of the same member set provided no two distinct members tie
on both byte size and creation timestamp; under a full tie the first
tied member in list order wins, so reordering may change the result. -/
theorem select_kept_file_perm_invariant (stat : Path → Option StatInfo)
    (l l' : List Path) (hp : l.Perm l') (hne : l ≠ [])
    (hinj : ∀ p ∈ l, ∀ q ∈ l, (mkRec stat p).size = (mkRec stat q).size →
      (mkRec stat p).created = (mkRec stat q).created → p = q) :
    select_kept_file stat l = select_kept_file stat l' := by
  obtain ⟨p, hps, hpm, hmin⟩ := select_kept_file_spec stat l hne
  have hne' : l' ≠ [] := by
    intro h
    subst h
    exact hne hp.eq_nil
  obtain ⟨p', hps', hpm', hmin'⟩ := select_kept_file_spec stat l' hne'
  have hp'l : p' ∈ l := hp.mem_iff.mpr hpm'
  have h1 := hmin p' hp'l
  have h2 := hmin' p (hp.mem_iff.mp hpm)
  unfold sortLe sortLt at h1 h2
  push_neg at h1 h2
  have hsz : (mkRec stat p).size = (mkRec stat p').size := by omega
  have hcr : (mkRec stat p).created = (mkRec stat p').created :=
    le_antisymm (h1.2 hsz.symm) (h2.2 hsz)
  rw [hps, hps', hinj p hpm p' hp'l hsz hcr]

/-- Witness for C7 (amended): distinct sizes, permuted two-member group,
equal selection. -/
theorem select_kept_file_perm_invariant_witness :
    (["a", "b"] : List Path).Perm ["b", "a"] ∧
      select_kept_file fxStatDistinct ["a", "b"] =
        select_kept_file fxStatDistinct ["b", "a"] :=
  ⟨List.Perm.swap "b" "a" [],
    select_kept_file_perm_invariant fxStatDistinct ["a", "b"] ["b", "a"]
      (List.Perm.swap "b" "a" []) (by decide) (by decide)⟩

end ClearImg

namespace ClearImg

/-! ### Dict grouping: `addToGroups` / `buildGroups` -/

theorem lookG_addToGroups_self {κ : Type} [DecidableEq κ] (k : κ) (f : Path)
    (gl : List (κ × List Path)) :
    lookG k (addToGroups k f gl) = some ((lookG k gl).getD [] ++ [f]) := by
  induction gl with
  | nil => simp [addToGroups, lookG]
  | cons e rest ih =>
    obtain ⟨k', fs⟩ := e
    by_cases h : k' = k
    · subst h
      simp [addToGroups, lookG]
    · simp [addToGroups, lookG, h, ih]

theorem lookG_addToGroups_ne {κ : Type} [DecidableEq κ] {k k' : κ}
    (hne : k' ≠ k) (f : Path) (gl : List (κ × List Path)) :
    lookG k' (addToGroups k f gl) = lookG k' gl := by
  have hne' : k ≠ k' := fun hh => hne hh.symm
  induction gl with
  | nil => simp [addToGroups, lookG, hne']
  | cons e rest ih =>
    obtain ⟨k0, fs⟩ := e
    by_cases h : k0 = k
    · subst h
      simp [addToGroups, lookG, hne']
    · by_cases h2 : k0 = k'
      · subst h2
        simp [addToGroups, lookG, h]
      · simp [addToGroups, lookG, h, h2, ih]

theorem buildGroups_snoc {κ : Type} [DecidableEq κ] (key : Path → Option κ)
    (l : List Path) (f : Path) :
    buildGroups key (l ++ [f]) =
      (match key f with
        | some k => addToGroups k f (buildGroups key l)
        | none => buildGroups key l) := by
  unfold buildGroups
  rw [List.foldl_append]
  rfl

theorem lookG_buildGroups {κ : Type} [DecidableEq κ] (key : Path → Option κ)
    (l : List Path) (k : κ) :
    lookG k (buildGroups key l) =
      if l.filter (fun f => decide (key f = some k)) = [] then none
      else some (l.filter (fun f => decide (key f = some k))) := by
  induction l using List.reverseRecOn with
  | nil => simp [buildGroups, lookG]
  | append_singleton l f ih =>
    rw [buildGroups_snoc]
    rcases hkf : key f with _ | k0
    · simpa [List.filter_append, hkf] using ih
    · by_cases h : k0 = k
      · subst h
        rw [lookG_addToGroups_self, ih]
        by_cases hfl : l.filter (fun f => decide (key f = some k0)) = [] <;>
          simp [List.filter_append, hkf, hfl]
      · rw [lookG_addToGroups_ne (fun hh => h hh.symm), ih]
        simp [List.filter_append, hkf, h]

theorem mem_addToGroups {κ : Type} [DecidableEq κ] (k : κ) (f : Path)
    (gl : List (κ × List Path)) :
    ∀ e ∈ addToGroups k f gl,
      e ∈ gl ∨ (e.1 = k ∧ ∃ fs, ((k, fs) ∈ gl ∨ fs = []) ∧ e.2 = fs ++ [f]) := by
  induction gl with
  | nil =>
    intro e he
    simp only [addToGroups, List.mem_singleton] at he
    subst he
    exact Or.inr ⟨rfl, [], Or.inr rfl, rfl⟩
  | cons e0 rest ih =>
    obtain ⟨k0, fs0⟩ := e0
    by_cases h : k0 = k
    · subst h
      intro e he
      simp only [addToGroups, if_pos rfl] at he
      rcases List.mem_cons.mp he with rfl | hmem
      · exact Or.inr ⟨rfl, fs0, Or.inl (List.mem_cons_self _ _), rfl⟩
      · exact Or.inl (List.mem_cons.mpr (Or.inr hmem))
    · intro e he
      simp only [addToGroups, if_neg h] at he
      rcases List.mem_cons.mp he with rfl | hmem
      · exact Or.inl (List.mem_cons_self _ _)
      · rcases ih e hmem with h1 | ⟨h2, fs, h3, h4⟩
        · exact Or.inl (List.mem_cons.mpr (Or.inr h1))
        · refine Or.inr ⟨h2, fs, ?_, h4⟩
          rcases h3 with h3 | h3
          · exact Or.inl (List.mem_cons.mpr (Or.inr h3))
          · exact Or.inr h3

theorem mem_buildGroups_key {κ : Type} [DecidableEq κ] (key : Path → Option κ)
    (l : List Path) :
    ∀ e ∈ buildGroups key l, ∀ f ∈ e.2, key f = some e.1 := by
  induction l using List.reverseRecOn with
  | nil => simp [buildGroups]
  | append_singleton l f ih =>
    rw [buildGroups_snoc]
    rcases hkf : key f with _ | k0
    · exact ih
    · intro e he x hx
      rcases mem_addToGroups k0 f _ e he with h1 | ⟨h2, fs, h3, h4⟩
      · exact ih e h1 x hx
      · rw [h4] at hx
        rcases List.mem_append.mp hx with hx' | hx'
        · rcases h3 with h3 | h3
          · have := ih (k0, fs) h3 x hx'
            rw [h2]
            exact this
          · subst h3
            cases hx'
        · rw [List.mem_singleton.mp hx', h2, hkf]

theorem keys_addToGroups {κ : Type} [DecidableEq κ] (k : κ) (f : Path)
    (gl : List (κ × List Path)) :
    (addToGroups k f gl).map Prod.fst =
      if k ∈ gl.map Prod.fst then gl.map Prod.fst
      else gl.map Prod.fst ++ [k] := by
  induction gl with
  | nil => simp [addToGroups]
  | cons e rest ih =>
    obtain ⟨k0, fs0⟩ := e
    by_cases h : k0 = k
    · subst h
      simp [addToGroups]
    · have hne' : k ≠ k0 := fun hh => h hh.symm
      simp only [addToGroups, if_neg h, List.map_cons, ih]
      have hiff : (k ∈ k0 :: rest.map Prod.fst) ↔ k ∈ rest.map Prod.fst := by
        simp [List.mem_cons, hne']
      by_cases h2 : k ∈ rest.map Prod.fst <;>
        simp [h2, hiff]

theorem keys_nodup_buildGroups {κ : Type} [DecidableEq κ]
    (key : Path → Option κ) (l : List Path) :
    ((buildGroups key l).map Prod.fst).Nodup := by
  induction l using List.reverseRecOn with
  | nil => simp [buildGroups]
  | append_singleton l f ih =>
    rw [buildGroups_snoc]
    rcases key f with _ | k0
    · exact ih
    · rw [keys_addToGroups]
      split
      · exact ih
      · rename_i h
        refine List.Nodup.append ih (List.nodup_singleton _) ?_
        simp [List.disjoint_singleton, h]

theorem lookG_eq_of_mem {κ : Type} [DecidableEq κ] {gl : List (κ × List Path)}
    (hnd : (gl.map Prod.fst).Nodup) {k : κ} {fs : List Path}
    (h : (k, fs) ∈ gl) : lookG k gl = some fs := by
  induction gl with
  | nil => cases h
  | cons e rest ih =>
    obtain ⟨k0, fs0⟩ := e
    rcases List.mem_cons.mp h with heq | hmem
    · injection heq with h1 h2
      subst h1
      subst h2
      simp [lookG]
    · have hk : k0 ≠ k := by
        intro hk0
        subst hk0
        have : k0 ∈ rest.map Prod.fst :=
          List.mem_map.mpr ⟨(k0, fs), hmem, rfl⟩
        exact (List.nodup_cons.mp (by simpa using hnd)).1 this
      rw [lookG, if_neg hk]
      exact ih (List.nodup_cons.mp (by simpa using hnd)).2 hmem

theorem mem_of_lookG {κ : Type} [DecidableEq κ] {gl : List (κ × List Path)}
    {k : κ} {fs : List Path} (h : lookG k gl = some fs) : (k, fs) ∈ gl := by
  induction gl with
  | nil => simp [lookG] at h
  | cons e rest ih =>
    obtain ⟨k0, fs0⟩ := e
    by_cases hk : k0 = k
    · subst hk
      rw [lookG, if_pos rfl] at h
      injection h with h
      subst h
      exact List.mem_cons_self _ _
    · rw [lookG, if_neg hk] at h
      exact List.mem_cons.mpr (Or.inr (ih h))

theorem entry_eq_filter {κ : Type} [DecidableEq κ] (key : Path → Option κ)
    (l : List Path) {k : κ} {fs : List Path}
    (h : (k, fs) ∈ buildGroups key l) :
    fs = l.filter (fun f => decide (key f = some k)) ∧ fs ≠ [] := by
  have hl := lookG_eq_of_mem (keys_nodup_buildGroups key l) h
  rw [lookG_buildGroups] at hl
  split at hl
  · cases hl
  · rename_i hne
    injection hl with hl
    exact ⟨hl.symm, hl ▸ hne⟩

theorem mem_buildGroups_of_filter {κ : Type} [DecidableEq κ]
    (key : Path → Option κ) (l : List Path) (k : κ)
    (h : l.filter (fun f => decide (key f = some k)) ≠ []) :
    (k, l.filter (fun f => decide (key f = some k))) ∈ buildGroups key l := by
  apply mem_of_lookG
  rw [lookG_buildGroups, if_neg h]

end ClearImg

namespace ClearImg

/-! ### `verify_size_duplicates` and the merge loops -/

theorem collectMatches_spec (ident : Path → Path → Bool) (f1 : Path)
    (rest : List Path) : ∀ proc : List Path,
    (∀ x ∈ proc, x ∈ (collectMatches ident f1 rest proc).2) ∧
    (∀ x ∈ (collectMatches ident f1 rest proc).2,
      x ∈ proc ∨ x ∈ (collectMatches ident f1 rest proc).1) ∧
    (∀ x ∈ (collectMatches ident f1 rest proc).1,
      x ∈ rest ∧ x ∉ proc ∧ x ∈ (collectMatches ident f1 rest proc).2 ∧
        ident f1 x = true) := by
  induction rest with
  | nil =>
    intro proc
    simp [collectMatches]
  | cons f2 rest ih =>
    intro proc
    by_cases hproc : f2 ∈ proc
    · simp only [collectMatches, if_pos hproc]
      obtain ⟨h1, h2, h3⟩ := ih proc
      exact ⟨h1, h2, fun x hx =>
        ⟨List.mem_cons.mpr (Or.inr (h3 x hx).1), (h3 x hx).2⟩⟩
    · by_cases hident : ident f1 f2
      · simp only [collectMatches, if_neg hproc, if_pos hident]
        obtain ⟨h1, h2, h3⟩ := ih (proc ++ [f2])
        refine ⟨?_, ?_, ?_⟩
        · intro x hx
          exact h1 x (List.mem_append.mpr (Or.inl hx))
        · intro x hx
          rcases h2 x hx with hx' | hx'
          · rcases List.mem_append.mp hx' with ha | ha
            · exact Or.inl ha
            · exact Or.inr (List.mem_cons.mpr (Or.inl (List.mem_singleton.mp ha)))
          · exact Or.inr (List.mem_cons.mpr (Or.inr hx'))
        · intro x hx
          rcases List.mem_cons.mp hx with rfl | hx'
          · exact ⟨List.mem_cons_self _ _, hproc,
              h1 x (List.mem_append.mpr (Or.inr (List.mem_singleton_self x))),
              hident⟩
          · obtain ⟨ha, hb, hc, hd⟩ := h3 x hx'
            exact ⟨List.mem_cons.mpr (Or.inr ha),
              fun hxp => hb (List.mem_append.mpr (Or.inl hxp)), hc, hd⟩
      · simp only [collectMatches, if_neg hproc, if_neg hident]
        obtain ⟨h1, h2, h3⟩ := ih proc
        exact ⟨h1, h2, fun x hx =>
          ⟨List.mem_cons.mpr (Or.inr (h3 x hx).1), (h3 x hx).2⟩⟩

theorem verifyAux_spec (ident : Path → Path → Bool) (files : List Path) :
    ∀ proc : List Path,
    (∀ x ∈ proc, x ∈ (verifyAux ident files proc).2) ∧
    (∀ g ∈ (verifyAux ident files proc).1,
      g.type = "exact_content" ∧
      (∃ f1 ms, g.files = f1 :: ms ∧ ∀ x ∈ ms, ident f1 x = true) ∧
      (∀ f ∈ g.files, f ∈ files ∧ f ∉ proc ∧
        f ∈ (verifyAux ident files proc).2)) ∧
    (verifyAux ident files proc).1.Pairwise disjGroups := by
  induction files with
  | nil =>
    intro proc
    simp [verifyAux]
  | cons f1 rest ih =>
    intro proc
    by_cases hproc : f1 ∈ proc
    · simp only [verifyAux, if_pos hproc]
      obtain ⟨h1, h2, h3⟩ := ih proc
      refine ⟨h1, ?_, h3⟩
      intro g hg
      obtain ⟨ha, hb, hc⟩ := h2 g hg
      exact ⟨ha, hb, fun f hf =>
        ⟨List.mem_cons.mpr (Or.inr (hc f hf).1), (hc f hf).2⟩⟩
    · obtain ⟨c1, c2, c3⟩ := collectMatches_spec ident f1 rest proc
      by_cases hlen : (collectMatches ident f1 rest proc).1.length + 1 > 1
      · simp only [verifyAux, if_neg hproc, if_pos hlen]
        obtain ⟨h1, h2, h3⟩ := ih ((collectMatches ident f1 rest proc).2 ++ [f1])
        have hsub : ∀ x, x ∈ (collectMatches ident f1 rest proc).2 →
            x ∈ (verifyAux ident rest
              ((collectMatches ident f1 rest proc).2 ++ [f1])).2 := by
          intro x hx
          exact h1 x (List.mem_append.mpr (Or.inl hx))
        refine ⟨?_, ?_, ?_⟩
        · intro x hx
          exact hsub x (c1 x hx)
        · intro g hg
          rcases List.mem_cons.mp hg with rfl | hg'
          · refine ⟨rfl, ⟨f1, (collectMatches ident f1 rest proc).1, rfl,
              fun x hx => (c3 x hx).2.2.2⟩, ?_⟩
            intro f hf
            rcases List.mem_cons.mp hf with rfl | hf'
            · exact ⟨List.mem_cons_self _ _, hproc,
                h1 f (List.mem_append.mpr (Or.inr (List.mem_singleton_self f)))⟩
            · obtain ⟨ha, hb, hc', _⟩ := c3 f hf'
              exact ⟨List.mem_cons.mpr (Or.inr ha), hb, hsub f hc'⟩
          · obtain ⟨ha, hb, hc⟩ := h2 g hg'
            refine ⟨ha, hb, ?_⟩
            intro f hf
            obtain ⟨hf1, hf2, hf3⟩ := hc f hf
            refine ⟨List.mem_cons.mpr (Or.inr hf1), ?_, hf3⟩
            intro hfp
            exact hf2 (List.mem_append.mpr (Or.inl (c1 f hfp)))
        · refine List.pairwise_cons.mpr ⟨?_, h3⟩
          intro g hg f hf
          intro hfg
          have hfin : f ∈ (collectMatches ident f1 rest proc).2 ++ [f1] := by
            rcases List.mem_cons.mp hf with rfl | hf'
            · exact List.mem_append.mpr (Or.inr (List.mem_singleton_self f))
            · exact List.mem_append.mpr (Or.inl (c3 f hf').2.2.1)
          exact ((h2 g hg).2.2 f hfg).2.1 hfin
      · simp only [verifyAux, if_neg hproc, if_neg hlen]
        obtain ⟨h1, h2, h3⟩ := ih (collectMatches ident f1 rest proc).2
        refine ⟨?_, ?_, h3⟩
        · intro x hx
          exact h1 x (c1 x hx)
        · intro g hg
          obtain ⟨ha, hb, hc⟩ := h2 g hg
          refine ⟨ha, hb, ?_⟩
          intro f hf
          obtain ⟨hf1, hf2, hf3⟩ := hc f hf
          exact ⟨List.mem_cons.mpr (Or.inr hf1),
            fun hfp => hf2 (c1 f hfp), hf3⟩

theorem foldl_flatFiles (gs : List Group) :
    ∀ acc : List Path,
      gs.foldl (fun a g => a ++ g.files) acc = acc ++ flatFiles gs := by
  induction gs with
  | nil =>
    intro acc
    simp [flatFiles]
  | cons g gs ih =>
    intro acc
    show gs.foldl _ (acc ++ g.files) = acc ++ flatFiles (g :: gs)
    rw [ih (acc ++ g.files)]
    have hcons : flatFiles (g :: gs) = g.files ++ flatFiles gs := by
      show gs.foldl _ ([] ++ g.files) = _
      rw [ih ([] ++ g.files)]
      simp
    rw [hcons, List.append_assoc]

theorem mem_flatFiles (gs : List Group) (f : Path) :
    f ∈ flatFiles gs ↔ ∃ g ∈ gs, f ∈ g.files := by
  induction gs with
  | nil => simp [flatFiles]
  | cons g gs ih =>
    have hcons : flatFiles (g :: gs) = g.files ++ flatFiles gs := by
      show gs.foldl _ ([] ++ g.files) = _
      rw [foldl_flatFiles gs ([] ++ g.files)]
      simp
    rw [hcons]
    simp [List.mem_append, ih]

theorem hashLoop_inv (hd : List (String × List Path)) :
    ∀ (gs : List Group) (proc : List Path),
      (∀ g ∈ gs, ∀ f ∈ g.files, f ∈ proc) → gs.Pairwise disjGroups →
      (∀ g ∈ (hashLoop hd gs proc).1, ∀ f ∈ g.files,
        f ∈ (hashLoop hd gs proc).2) ∧
      (hashLoop hd gs proc).1.Pairwise disjGroups := by
  induction hd with
  | nil =>
    intro gs proc h1 h2
    simpa [hashLoop] using ⟨h1, h2⟩
  | cons e rest ih =>
    intro gs proc h1 h2
    obtain ⟨hk, files⟩ := e
    by_cases hg : files.any (fun f => decide (f ∈ proc))
    · simp only [hashLoop, if_pos hg]
      exact ih gs proc h1 h2
    · simp only [hashLoop, if_neg hg]
      have hnot : ∀ f ∈ files, f ∉ proc := by
        intro f hf hfp
        exact hg (List.any_eq_true.mpr ⟨f, hf, by simpa using hfp⟩)
      apply ih
      · intro g hg' f hf
        rcases List.mem_append.mp hg' with h' | h'
        · exact List.mem_append.mpr (Or.inl (h1 g h' f hf))
        · rw [List.mem_singleton.mp h'] at hf
          exact List.mem_append.mpr (Or.inr hf)
      · rw [List.pairwise_append]
        refine ⟨h2, List.pairwise_singleton _ _, ?_⟩
        intro g hg' g' hg''
        rw [List.mem_singleton.mp hg'']
        intro f hf hffiles
        exact hnot f hffiles (h1 g hg' f hf)

theorem sizeLoop_inv (env : Env) (sd : List (((Nat × Nat) × Nat) × List Path)) :
    ∀ (gs : List Group) (proc : List Path),
      (∀ g ∈ gs, ∀ f ∈ g.files, f ∈ proc) → gs.Pairwise disjGroups →
      (sizeLoop env sd gs proc).1.Pairwise disjGroups := by
  induction sd with
  | nil =>
    intro gs proc h1 h2
    simpa [sizeLoop] using h2
  | cons e rest ih =>
    intro gs proc h1 h2
    obtain ⟨ky, files⟩ := e
    by_cases hlen : (files.filter (fun f => !(decide (f ∈ proc)))).length > 1
    · simp only [sizeLoop, if_pos hlen]
      obtain ⟨v1, v2, v3⟩ :=
        verifyAux_spec (identEnv env) (files.filter (fun f => !(decide (f ∈ proc)))) []
      have hrem : ∀ f, f ∈ files.filter (fun f => !(decide (f ∈ proc))) → f ∉ proc := by
        intro f hf
        have := (List.mem_filter.mp hf).2
        simpa using this
      have hvfiles : ∀ g ∈ verify_size_duplicates env
          (files.filter (fun f => !(decide (f ∈ proc)))), ∀ f ∈ g.files, f ∉ proc := by
        intro g hg f hf
        exact hrem f ((v2 g hg).2.2 f hf).1
      apply ih
      · intro g hg' f hf
        rcases List.mem_append.mp hg' with h' | h'
        · exact List.mem_append.mpr (Or.inl (h1 g h' f hf))
        · exact List.mem_append.mpr (Or.inr ((mem_flatFiles _ f).mpr ⟨g, h', hf⟩))
      · rw [List.pairwise_append]
        refine ⟨h2, v3, ?_⟩
        intro g hg' g' hg'' f hf hf'
        exact hvfiles g' hg'' f hf' (h1 g hg' f hf)
    · simp only [sizeLoop, if_neg hlen]
      exact ih gs proc h1 h2

/-- C1: the groups returned by `find_duplicate_groups` are pairwise
disjoint — every file path appears in at most one `DuplicateGroup`,
across the exact-hash and exact-content tiers together. -/
theorem find_duplicate_groups_disjoint (env : Env)
    (image_files arrival : List Path) :
    (find_duplicate_groups env image_files arrival).Pairwise disjGroups := by
  unfold find_duplicate_groups
  obtain ⟨h1, h2⟩ := hashLoop_inv (find_duplicates_by_hash env arrival) [] []
    (by simp) (by simp)
  exact sizeLoop_inv env (find_duplicates_by_metadata env image_files) _ _ h1 h2

end ClearImg

namespace ClearImg

/-! ### C9 / C10: tier content properties -/

theorem are_images_identical_meta_eq {env : Env} {p1 p2 : Path}
    {m1 m2 : Metadata} (h : are_images_identical env p1 p2 m1 m2 = true) :
    m1.size = m2.size ∧ m1.dims = m2.dims := by
  unfold are_images_identical at h
  by_cases h1 : m1.size ≠ m2.size
  · rw [if_pos h1] at h
    cases h
  · rw [if_neg h1] at h
    by_cases h2 : m1.dims ≠ m2.dims
    · rw [if_pos h2] at h
      cases h
    · exact ⟨not_ne_iff.mp h1, not_ne_iff.mp h2⟩

/-- C9: every group produced by `verify_size_duplicates` is of type
`exact_content` and metadata-homogeneous: each member has the same
metadata byte size and pixel dimensions as the group's representative
(its first member), because membership required passing
`are_images_identical` against the representative. -/
theorem verify_size_duplicates_homogeneous (env : Env) (files : List Path)
    (g : Group) (hg : g ∈ verify_size_duplicates env files) :
    g.type = "exact_content" ∧
    ∃ rep tl, g.files = rep :: tl ∧
      ∀ f ∈ tl, (mdOf env f).size = (mdOf env rep).size ∧
        (mdOf env f).dims = (mdOf env rep).dims := by
  obtain ⟨-, h2, -⟩ := verifyAux_spec (identEnv env) files []
  obtain ⟨ht, ⟨f1, ms, hfiles, hident⟩, -⟩ := h2 g hg
  refine ⟨ht, f1, ms, hfiles, ?_⟩
  intro f hf
  have h := hident f hf
  unfold identEnv at h
  obtain ⟨hs, hd⟩ := are_images_identical_meta_eq h
  exact ⟨hs.symm, hd.symm⟩

/-- Witness for C9 on the concrete environment `fxEnvMixed`. -/
theorem verify_size_duplicates_homogeneous_witness :
    (⟨"exact_content", ["c", "d"], 2⟩ : Group) ∈
        verify_size_duplicates fxEnvMixed ["c", "d"] ∧
      ((⟨"exact_content", ["c", "d"], 2⟩ : Group).type = "exact_content" ∧
        ∃ rep tl, (⟨"exact_content", ["c", "d"], 2⟩ : Group).files = rep :: tl ∧
          ∀ f ∈ tl, (mdOf fxEnvMixed f).size = (mdOf fxEnvMixed rep).size ∧
            (mdOf fxEnvMixed f).dims = (mdOf fxEnvMixed rep).dims) :=
  ⟨by decide,
    verify_size_duplicates_homogeneous fxEnvMixed ["c", "d"] _ (by decide)⟩

theorem hashLoop_mem (hd : List (String × List Path)) :
    ∀ (gs : List Group) (proc : List Path) (g : Group),
      g ∈ (hashLoop hd gs proc).1 →
      g ∈ gs ∨ ∃ e ∈ hd, g = (⟨"exact_hash", e.2, e.2.length⟩ : Group) := by
  induction hd with
  | nil =>
    intro gs proc g hg
    exact Or.inl (by simpa [hashLoop] using hg)
  | cons e rest ih =>
    intro gs proc g hg
    obtain ⟨hk, files⟩ := e
    by_cases hcond : files.any (fun f => decide (f ∈ proc))
    · simp only [hashLoop, if_pos hcond] at hg
      rcases ih gs proc g hg with h | ⟨e', he', hgeq⟩
      · exact Or.inl h
      · exact Or.inr ⟨e', List.mem_cons.mpr (Or.inr he'), hgeq⟩
    · simp only [hashLoop, if_neg hcond] at hg
      rcases ih _ _ g hg with h | ⟨e', he', hgeq⟩
      · rcases List.mem_append.mp h with h' | h'
        · exact Or.inl h'
        · exact Or.inr ⟨(hk, files), List.mem_cons_self _ _,
            List.mem_singleton.mp h'⟩
      · exact Or.inr ⟨e', List.mem_cons.mpr (Or.inr he'), hgeq⟩

theorem sizeLoop_mem (env : Env) (sd : List (((Nat × Nat) × Nat) × List Path)) :
    ∀ (gs : List Group) (proc : List Path) (g : Group),
      g ∈ (sizeLoop env sd gs proc).1 →
      g ∈ gs ∨ g.type = "exact_content" := by
  induction sd with
  | nil =>
    intro gs proc g hg
    exact Or.inl (by simpa [sizeLoop] using hg)
  | cons e rest ih =>
    intro gs proc g hg
    obtain ⟨ky, files⟩ := e
    by_cases hlen : (files.filter (fun f => !(decide (f ∈ proc)))).length > 1
    · simp only [sizeLoop, if_pos hlen] at hg
      rcases ih _ _ g hg with h | h
      · rcases List.mem_append.mp h with h' | h'
        · exact Or.inl h'
        · obtain ⟨-, h2, -⟩ := verifyAux_spec (identEnv env)
            (files.filter (fun f => !(decide (f ∈ proc)))) []
          exact Or.inr (h2 g h').1
      · exact Or.inr h
    · simp only [sizeLoop, if_neg hlen] at hg
      exact ih gs proc g hg

/-- C10: a file whose digest computation fails (`calculate_file_hash`
returns `None`) is excluded from every `exact_hash` group, while the
hash tier still groups the other files and the file itself can still
appear in an `exact_content` group (concrete run: `a`,`b` are grouped by
hash even though `c`'s hash fails, and `c` lands in the `exact_content`
group with `d`). -/
theorem hash_failure_excluded_from_hash_groups :
    (∀ (env : Env) (image_files arrival : List Path) (f : Path) (g : Group),
      env.hash f = none → g ∈ find_duplicate_groups env image_files arrival →
      g.type = "exact_hash" → f ∉ g.files) ∧
    (fxEnvMixed.hash "c" = none ∧
      find_duplicate_groups fxEnvMixed ["a", "b", "c", "d"]
          ["a", "b", "c", "d"] =
        [⟨"exact_hash", ["a", "b"], 2⟩, ⟨"exact_content", ["c", "d"], 2⟩]) := by
  refine ⟨?_, by decide, by decide⟩
  intro env image_files arrival f g hnone hg htype hf
  unfold find_duplicate_groups at hg
  rcases sizeLoop_mem env _ _ _ g hg with h | h
  · rcases hashLoop_mem _ _ _ g h with h' | ⟨e, he, hgeq⟩
    · cases h'
    · have he' : e ∈ buildGroups env.hash arrival :=
        List.mem_filter.mp he |>.1
      have hkey := mem_buildGroups_key env.hash arrival e he' f
        (by rw [hgeq] at hf; exact hf)
      rw [hnone] at hkey
      cases hkey
  · rw [htype] at h
    exact absurd h (by decide)

/-- Witness for C10: instantiating the exclusion at the concrete run. -/
theorem hash_failure_excluded_from_hash_groups_witness :
    "c" ∉ ({ type := "exact_hash", files := ["a", "b"], count := 2 } : Group).files :=
  hash_failure_excluded_from_hash_groups.1 fxEnvMixed
    ["a", "b", "c", "d"] ["a", "b", "c", "d"] "c"
    ⟨"exact_hash", ["a", "b"], 2⟩ (by decide) (by decide) rfl

end ClearImg

namespace ClearImg

/-! ### C4: arrival-order (in)dependence of the grouping -/

theorem buildGroups_entries_disjoint {κ : Type} [DecidableEq κ]
    (key : Path → Option κ) (l : List Path) :
    (buildGroups key l).Pairwise (fun e1 e2 => ∀ f ∈ e1.2, f ∉ e2.2) := by
  have hkeys := keys_nodup_buildGroups key l
  have hpw : (buildGroups key l).Pairwise (fun e1 e2 => e1.1 ≠ e2.1) :=
    List.pairwise_map.mp hkeys
  refine hpw.imp_of_mem ?_
  intro e1 e2 h1 h2 hne f hf1 hf2
  have k1 := mem_buildGroups_key key l e1 h1 f hf1
  have k2 := mem_buildGroups_key key l e2 h2 f hf2
  rw [k1] at k2
  exact hne (Option.some.inj k2)

theorem hashLoop_complete (hd : List (String × List Path)) :
    ∀ (gs : List Group) (proc : List Path),
      (∀ e ∈ hd, ∀ f ∈ e.2, f ∉ proc) →
      hd.Pairwise (fun e1 e2 => ∀ f ∈ e1.2, f ∉ e2.2) →
      hashLoop hd gs proc =
        (gs ++ hd.map (fun e => (⟨"exact_hash", e.2, e.2.length⟩ : Group)),
          proc ++ (hd.map Prod.snd).flatten) := by
  induction hd with
  | nil =>
    intro gs proc _ _
    simp [hashLoop]
  | cons e rest ih =>
    intro gs proc hnp hpw
    obtain ⟨hk, files⟩ := e
    have hcond : ¬ files.any (fun f => decide (f ∈ proc)) := by
      intro hcond
      obtain ⟨f, hf, hd2⟩ := List.any_eq_true.mp hcond
      exact hnp _ (List.mem_cons_self _ _) f hf (of_decide_eq_true hd2)
    simp only [hashLoop, if_neg hcond]
    rw [ih]
    · simp [List.append_assoc]
    · intro e' he' f hf hfp
      rcases List.mem_append.mp hfp with h | h
      · exact hnp e' (List.mem_cons.mpr (Or.inr he')) f hf h
      · exact (List.pairwise_cons.mp hpw).1 e' he' f h hf
    · exact (List.pairwise_cons.mp hpw).2

theorem mem_hash_dups_iff (env : Env) (arrival : List Path) (f : Path) :
    (∃ e ∈ find_duplicates_by_hash env arrival, f ∈ e.2) ↔
      ∃ k, env.hash f = some k ∧ f ∈ arrival ∧
        1 < (arrival.filter (fun x => decide (env.hash x = some k))).length := by
  constructor
  · rintro ⟨e, he, hf⟩
    have he' := List.mem_filter.mp he
    obtain ⟨k, fs⟩ := e
    obtain ⟨hfil, -⟩ := entry_eq_filter env.hash arrival he'.1
    refine ⟨k, mem_buildGroups_key env.hash arrival (k, fs) he'.1 f hf, ?_, ?_⟩
    · rw [hfil] at hf
      exact (List.mem_filter.mp hf).1
    · have hlen : 1 < fs.length := by simpa using he'.2
      rw [hfil] at hlen
      exact hlen
  · rintro ⟨k, hk, hfa, hlen⟩
    have hne : arrival.filter (fun x => decide (env.hash x = some k)) ≠ [] := by
      intro h
      rw [h] at hlen
      simp at hlen
    refine ⟨(k, arrival.filter (fun x => decide (env.hash x = some k))), ?_, ?_⟩
    · exact List.mem_filter.mpr
        ⟨mem_buildGroups_of_filter env.hash arrival k hne, by simpa using hlen⟩
    · exact List.mem_filter.mpr ⟨hfa, by simpa using hk⟩

theorem sizeLoop_congr (env : Env) (sd : List (((Nat × Nat) × Nat) × List Path)) :
    ∀ (gs : List Group) (proc proc' : List Path),
      (∀ p, p ∈ proc ↔ p ∈ proc') →
      (sizeLoop env sd gs proc).1 = (sizeLoop env sd gs proc').1 := by
  induction sd with
  | nil =>
    intro gs proc proc' _
    simp [sizeLoop]
  | cons e rest ih =>
    intro gs proc proc' h
    obtain ⟨ky, files⟩ := e
    have hfil : files.filter (fun f => !(decide (f ∈ proc))) =
        files.filter (fun f => !(decide (f ∈ proc'))) := by
      apply List.filter_congr
      intro f _
      rw [decide_eq_decide.mpr (h f)]
    by_cases hlen : (files.filter (fun f => !(decide (f ∈ proc)))).length > 1
    · have hlen' : (files.filter (fun f => !(decide (f ∈ proc')))).length > 1 := by
        rw [← hfil]
        exact hlen
      simp only [sizeLoop, if_pos hlen, if_pos hlen']
      rw [hfil]
      apply ih
      intro p
      simp [List.mem_append, h p]
    · have hlen' : ¬ (files.filter (fun f => !(decide (f ∈ proc')))).length > 1 := by
        rw [← hfil]
        exact hlen
      simp only [sizeLoop, if_neg hlen, if_neg hlen']
      exact ih gs proc proc' h

theorem sizeLoop_acc (env : Env) (sd : List (((Nat × Nat) × Nat) × List Path)) :
    ∀ (gs : List Group) (proc : List Path),
      (sizeLoop env sd gs proc).1 = gs ++ (sizeLoop env sd [] proc).1 := by
  induction sd with
  | nil =>
    intro gs proc
    simp [sizeLoop]
  | cons e rest ih =>
    intro gs proc
    obtain ⟨ky, files⟩ := e
    by_cases hlen : (files.filter (fun f => !(decide (f ∈ proc)))).length > 1
    · simp only [sizeLoop, if_pos hlen]
      rw [ih (gs ++ _), ih ([] ++ _)]
      simp [List.append_assoc]
    · simp only [sizeLoop, if_neg hlen]
      exact ih gs proc

/-- Counterexample for C4: two arrival orders of the hash results that
are permutations of each other produce different outputs — the
`exact_hash` groups appear in first-arrival order. -/
theorem find_duplicate_groups_arrival_order_dependent :
    (["a1", "a2", "b1", "b2"] : List Path).Perm ["b1", "b2", "a1", "a2"] ∧
      find_duplicate_groups fxEnvTwoHash ["a1", "a2", "b1", "b2"]
          ["a1", "a2", "b1", "b2"] ≠
        find_duplicate_groups fxEnvTwoHash ["a1", "a2", "b1", "b2"]
          ["b1", "b2", "a1", "a2"] := by
  constructor
  · decide
  · decide

/-- C4 (amended): for arrival orders that are permutations of each
other, the `exact_content` part of the output is identical (same groups,
same order, same member order), and membership of a file in some
`exact_hash` group is arrival-independent; the list order of the
`exact_hash` groups themselves, however, follows first-arrival order. -/
theorem find_duplicate_groups_arrival_perm (env : Env)
    (image_files A A' : List Path) (hperm : A.Perm A') :
    ((find_duplicate_groups env image_files A).filter
        (fun g => decide (g.type = "exact_content")) =
      (find_duplicate_groups env image_files A').filter
        (fun g => decide (g.type = "exact_content"))) ∧
    (∀ f, (∃ g ∈ find_duplicate_groups env image_files A,
        g.type = "exact_hash" ∧ f ∈ g.files) ↔
      (∃ g ∈ find_duplicate_groups env image_files A',
        g.type = "exact_hash" ∧ f ∈ g.files)) := by
  have hcompA := hashLoop_complete (find_duplicates_by_hash env A) [] []
    (by simp) ((buildGroups_entries_disjoint env.hash A).sublist
      (List.filter_sublist _))
  have hcompA' := hashLoop_complete (find_duplicates_by_hash env A') [] []
    (by simp) ((buildGroups_entries_disjoint env.hash A').sublist
      (List.filter_sublist _))
  -- membership in the claimed set after the hash tier
  have hprocA : ∀ p, p ∈ (hashLoop (find_duplicates_by_hash env A) [] []).2 ↔
      ∃ e ∈ find_duplicates_by_hash env A, p ∈ e.2 := by
    intro p
    rw [hcompA]
    simp only [List.nil_append, List.mem_flatten, List.mem_map]
    constructor
    · rintro ⟨fs, ⟨e, he, rfl⟩, hp⟩
      exact ⟨e, he, hp⟩
    · rintro ⟨e, he, hp⟩
      exact ⟨e.2, ⟨e, he, rfl⟩, hp⟩
  have hprocA' : ∀ p, p ∈ (hashLoop (find_duplicates_by_hash env A') [] []).2 ↔
      ∃ e ∈ find_duplicates_by_hash env A', p ∈ e.2 := by
    intro p
    rw [hcompA']
    simp only [List.nil_append, List.mem_flatten, List.mem_map]
    constructor
    · rintro ⟨fs, ⟨e, he, rfl⟩, hp⟩
      exact ⟨e, he, hp⟩
    · rintro ⟨e, he, hp⟩
      exact ⟨e.2, ⟨e, he, rfl⟩, hp⟩
  have hchar : ∀ p, (∃ e ∈ find_duplicates_by_hash env A, p ∈ e.2) ↔
      ∃ e ∈ find_duplicates_by_hash env A', p ∈ e.2 := by
    intro p
    rw [mem_hash_dups_iff, mem_hash_dups_iff]
    constructor
    · rintro ⟨k, h1, h2, h3⟩
      exact ⟨k, h1, hperm.mem_iff.mp h2,
        by rw [← (hperm.filter _).length_eq]; exact h3⟩
    · rintro ⟨k, h1, h2, h3⟩
      exact ⟨k, h1, hperm.mem_iff.mpr h2,
        by rw [(hperm.filter _).length_eq]; exact h3⟩
  have hprocIff : ∀ p, p ∈ (hashLoop (find_duplicates_by_hash env A) [] []).2 ↔
      p ∈ (hashLoop (find_duplicates_by_hash env A') [] []).2 := by
    intro p
    rw [hprocA, hprocA', hchar]
  -- the outputs split as hash-tier groups ++ a common metadata tail
  have houtA : find_duplicate_groups env image_files A =
      (hashLoop (find_duplicates_by_hash env A) [] []).1 ++
        (sizeLoop env (find_duplicates_by_metadata env image_files) []
          (hashLoop (find_duplicates_by_hash env A) [] []).2).1 := by
    unfold find_duplicate_groups
    rw [sizeLoop_acc]
  have houtA' : find_duplicate_groups env image_files A' =
      (hashLoop (find_duplicates_by_hash env A') [] []).1 ++
        (sizeLoop env (find_duplicates_by_metadata env image_files) []
          (hashLoop (find_duplicates_by_hash env A') [] []).2).1 := by
    unfold find_duplicate_groups
    rw [sizeLoop_acc]
  have htail : (sizeLoop env (find_duplicates_by_metadata env image_files) []
        (hashLoop (find_duplicates_by_hash env A) [] []).2).1 =
      (sizeLoop env (find_duplicates_by_metadata env image_files) []
        (hashLoop (find_duplicates_by_hash env A') [] []).2).1 :=
    sizeLoop_congr env _ [] _ _ hprocIff
  have hgs1A : (hashLoop (find_duplicates_by_hash env A) [] []).1 =
      (find_duplicates_by_hash env A).map
        (fun e => (⟨"exact_hash", e.2, e.2.length⟩ : Group)) := by
    rw [hcompA]
    simp
  have hgs1A' : (hashLoop (find_duplicates_by_hash env A') [] []).1 =
      (find_duplicates_by_hash env A').map
        (fun e => (⟨"exact_hash", e.2, e.2.length⟩ : Group)) := by
    rw [hcompA']
    simp
  constructor
  · rw [houtA, houtA', List.filter_append, List.filter_append, htail]
    have hnil : ∀ l : List (String × List Path),
        (l.map (fun e => (⟨"exact_hash", e.2, e.2.length⟩ : Group))).filter
          (fun g => decide (g.type = "exact_content")) = [] := by
      intro l
      rw [List.filter_eq_nil_iff]
      rintro g hg
      obtain ⟨e, -, rfl⟩ := List.mem_map.mp hg
      simp
    rw [hgs1A, hgs1A', hnil, hnil]
  · intro f
    have hsplit : ∀ (B : List Path),
        (∃ g ∈ find_duplicate_groups env image_files B,
          g.type = "exact_hash" ∧ f ∈ g.files) ↔
        ∃ e ∈ find_duplicates_by_hash env B, f ∈ e.2 := by
      intro B
      constructor
      · rintro ⟨g, hg, htype, hf⟩
        have : g ∈ (hashLoop (find_duplicates_by_hash env B) [] []).1 ∨
            g.type = "exact_content" := by
          unfold find_duplicate_groups at hg
          exact sizeLoop_mem env _ _ _ g hg
        rcases this with h | h
        · rcases hashLoop_mem _ _ _ g h with h' | ⟨e, he, rfl⟩
          · cases h'
          · exact ⟨e, he, hf⟩
        · rw [htype] at h
          exact absurd h (by decide)
      · rintro ⟨e, he, hf⟩
        refine ⟨⟨"exact_hash", e.2, e.2.length⟩, ?_, rfl, hf⟩
        have hmem : (⟨"exact_hash", e.2, e.2.length⟩ : Group) ∈
            (hashLoop (find_duplicates_by_hash env B) [] []).1 ++
              (sizeLoop env (find_duplicates_by_metadata env image_files) []
                (hashLoop (find_duplicates_by_hash env B) [] []).2).1 := by
          apply List.mem_append.mpr
          left
          have hcompB := hashLoop_complete (find_duplicates_by_hash env B) [] []
            (by simp) ((buildGroups_entries_disjoint env.hash B).sublist
              (List.filter_sublist _))
          rw [hcompB]
          simp only [List.nil_append]
          exact List.mem_map.mpr ⟨e, he, rfl⟩
        unfold find_duplicate_groups
        rw [sizeLoop_acc]
        exact hmem
    rw [hsplit A, hsplit A', hchar f]

/-- Witness for C4 (amended) at the concrete two-pair environment. -/
theorem find_duplicate_groups_arrival_perm_witness :
    ((find_duplicate_groups fxEnvTwoHash ["a1", "a2", "b1", "b2"]
          ["a1", "a2", "b1", "b2"]).filter
        (fun g => decide (g.type = "exact_content")) =
      (find_duplicate_groups fxEnvTwoHash ["a1", "a2", "b1", "b2"]
          ["b1", "b2", "a1", "a2"]).filter
        (fun g => decide (g.type = "exact_content"))) ∧
    ((∃ g ∈ find_duplicate_groups fxEnvTwoHash ["a1", "a2", "b1", "b2"]
          ["a1", "a2", "b1", "b2"], g.type = "exact_hash" ∧ "a1" ∈ g.files) ↔
      (∃ g ∈ find_duplicate_groups fxEnvTwoHash ["a1", "a2", "b1", "b2"]
          ["b1", "b2", "a1", "a2"], g.type = "exact_hash" ∧ "a1" ∈ g.files)) :=
  ⟨(find_duplicate_groups_arrival_perm fxEnvTwoHash ["a1", "a2", "b1", "b2"]
      ["a1", "a2", "b1", "b2"] ["b1", "b2", "a1", "a2"] (by decide)).1,
    (find_duplicate_groups_arrival_perm fxEnvTwoHash ["a1", "a2", "b1", "b2"]
      ["a1", "a2", "b1", "b2"] ["b1", "b2", "a1", "a2"] (by decide)).2 "a1"⟩

end ClearImg

namespace ClearImg

/-! ### C5: `are_images_identical` check order -/

/-- C5: `are_images_identical` applies its checks in order,
short-circuiting on the first `false`: a metadata byte-size mismatch or
dimension mismatch forces `false`; equal computed digests force `true`;
otherwise the result is the pixel comparison, which is `false` whenever
either decode fails, and with both images decoded is `true` exactly when
after converting the second image to the first's mode the sizes agree
and the pixel difference is empty (`getbbox` is `None`). -/
theorem are_images_identical_policy (env : Env) (p1 p2 : Path)
    (m1 m2 : Metadata) :
    (m1.size ≠ m2.size → are_images_identical env p1 p2 m1 m2 = false) ∧
    (m1.dims ≠ m2.dims → are_images_identical env p1 p2 m1 m2 = false) ∧
    (∀ h1 h2, m1.size = m2.size → m1.dims = m2.dims →
      env.hash p1 = some h1 → env.hash p2 = some h2 → h1 = h2 →
      are_images_identical env p1 p2 m1 m2 = true) ∧
    (m1.size = m2.size → m1.dims = m2.dims →
      (∀ h1 h2, env.hash p1 = some h1 → env.hash p2 = some h2 → h1 ≠ h2) →
      ((env.img p1 = none ∨ env.img p2 = none) →
        are_images_identical env p1 p2 m1 m2 = false) ∧
      (∀ i1 i2, env.img p1 = some i1 → env.img p2 = some i2 →
        (are_images_identical env p1 p2 m1 m2 = true ↔
          i1.isize = (convertTo env i1.mode i2).isize ∧
            i1.pix = (convertTo env i1.mode i2).pix))) := by
  refine ⟨?_, ?_, ?_, ?_⟩
  · intro h
    unfold are_images_identical
    rw [if_pos h]
  · intro h
    unfold are_images_identical
    by_cases hs : m1.size ≠ m2.size
    · rw [if_pos hs]
    · rw [if_neg hs, if_pos h]
  · intro h1 h2 hs hd hh1 hh2 heq
    unfold are_images_identical
    rw [if_neg (not_ne_iff.mpr hs), if_neg (not_ne_iff.mpr hd)]
    subst heq
    simp [hh1, hh2]
  · intro hs hd hne
    have hhe : (match env.hash p1, env.hash p2 with
        | some h1, some h2 => h1 == h2
        | _, _ => false) = false := by
      rcases ha : env.hash p1 with _ | h1
      · rfl
      · rcases hb : env.hash p2 with _ | h2
        · rfl
        · exact beq_eq_false_iff_ne.mpr (hne h1 h2 ha hb)
    have key : are_images_identical env p1 p2 m1 m2 =
        (match env.img p1, env.img p2 with
          | some i1, some i2 =>
            if i1.isize ≠ (convertTo env i1.mode i2).isize then false
            else if i1.pix = (convertTo env i1.mode i2).pix then true
            else false
          | _, _ => false) := by
      unfold are_images_identical
      rw [if_neg (not_ne_iff.mpr hs), if_neg (not_ne_iff.mpr hd)]
      simp only [hhe, Bool.false_eq_true, if_false]
    refine ⟨?_, ?_⟩
    · intro hdec
      rw [key]
      rcases hdec with h | h
      · rw [h]
      · rw [h]
        rcases env.img p1 with _ | i1 <;> rfl
    · intro i1 i2 h1 h2
      rw [key, h1, h2]
      have hred : (match some i1, some i2 with
          | some i1, some i2 =>
            if i1.isize ≠ (convertTo env i1.mode i2).isize then false
            else if i1.pix = (convertTo env i1.mode i2).pix then true else false
          | _, _ => false) =
          (if i1.isize ≠ (convertTo env i1.mode i2).isize then false
            else if i1.pix = (convertTo env i1.mode i2).pix then true
            else false) := rfl
      rw [hred]
      constructor
      · intro htrue
        by_cases hsz : i1.isize ≠ (convertTo env i1.mode i2).isize
        · rw [if_pos hsz] at htrue
          cases htrue
        · rw [if_neg hsz] at htrue
          by_cases hpx : i1.pix = (convertTo env i1.mode i2).pix
          · exact ⟨not_ne_iff.mp hsz, hpx⟩
          · rw [if_neg hpx] at htrue
            cases htrue
      · rintro ⟨ha, hb⟩
        show (if i1.isize ≠ (convertTo env i1.mode i2).isize then false
          else if i1.pix = (convertTo env i1.mode i2).pix then true
          else false) = true
        rw [if_neg (not_ne_iff.mpr ha), if_pos hb]

/-- Witness for C5: equal metadata and equal digests yield `true`. -/
theorem are_images_identical_policy_witness :
    are_images_identical fxEnvHashOnly "p" "q"
      ⟨1, (1, 1), 0, 0, ""⟩ ⟨1, (1, 1), 0, 0, ""⟩ = true :=
  (are_images_identical_policy fxEnvHashOnly "p" "q"
    ⟨1, (1, 1), 0, 0, ""⟩ ⟨1, (1, 1), 0, 0, ""⟩).2.2.1 "h" "h" rfl rfl rfl rfl rfl

end ClearImg

namespace ClearImg

/-! ### C8: dry-run mode -/

theorem processGroup_dry_fs (bk? : Option (Path → Path)) (cf uf : Path → Bool)
    (st : CleanupStats × FS) (g : Group) :
    (processGroup true bk? cf uf st g).2 = st.2 := by
  cases h : select_kept_file (statOf st.2) g.files <;>
    simp [processGroup, h]

theorem cleanup_dry_fs (bk? : Option (Path → Path)) (cf uf : Path → Bool)
    (gs : List Group) : ∀ st : CleanupStats × FS,
    (gs.foldl (processGroup true bk? cf uf) st).2 = st.2 := by
  induction gs with
  | nil => intro st; rfl
  | cons g gs ih =>
    intro st
    rw [List.foldl_cons, ih, processGroup_dry_fs]

theorem processGroup_dry_stats (bk? : Option (Path → Path))
    (cf uf : Path → Bool) (st : CleanupStats × FS) (g : Group) :
    (processGroup true bk? cf uf st g).1.space_to_save =
      st.1.space_to_save + groupSpace st.2 g := by
  cases h : select_kept_file (statOf st.2) g.files <;>
    simp [processGroup, h, groupSpace, removalsOf, keptOf]

theorem cleanup_dry_space (bk? : Option (Path → Path)) (cf uf : Path → Bool)
    (gs : List Group) : ∀ st : CleanupStats × FS,
    (gs.foldl (processGroup true bk? cf uf) st).1.space_to_save =
      st.1.space_to_save + (gs.map (groupSpace st.2)).sum := by
  induction gs with
  | nil =>
    intro st
    simp
  | cons g gs ih =>
    intro st
    rw [List.foldl_cons, ih, processGroup_dry_fs, processGroup_dry_stats]
    simp [Nat.add_assoc]

/-- C8: in dry-run mode `cleanup_duplicates` leaves the filesystem
untouched (nothing deleted, overwritten or copied) and reports as
projected reclaimed bytes the sum over all groups of the sizes of the
non-kept files. -/
theorem cleanup_duplicates_dry_run (bk? : Option (Path → Path))
    (cf uf : Path → Bool) (fs0 : FS) (groups : List Group) :
    (cleanup_duplicates true bk? cf uf fs0 groups).2 = fs0 ∧
    (cleanup_duplicates true bk? cf uf fs0 groups).1.space_to_save =
      (groups.map (groupSpace fs0)).sum := by
  unfold cleanup_duplicates
  refine ⟨cleanup_dry_fs _ _ _ _ _, ?_⟩
  rw [cleanup_dry_space]
  simp

/-! ### Frame and effect lemmas for apply mode -/

theorem applyRemoval_frame (bk? : Option (Path → Path)) (cf uf : Path → Bool)
    (fs : FS) (f p : Path) (hp : p ≠ f)
    (hbk : ∀ bk, bk? = some bk → p ≠ bk f) :
    applyRemoval bk? cf uf fs f p = fs p := by
  unfold applyRemoval
  rcases hb : bk? with _ | bk
  · rcases fs f with _ | d
    · rfl
    · by_cases hu : uf f
      · simp [hu]
      · simp [hu, hp]
  · have hpbk : p ≠ bk f := hbk bk hb
    rcases fs f with _ | d
    · rfl
    · by_cases hc : cf f
      · simp [hc]
      · by_cases hu : uf f
        · simp [hc, hu, hpbk]
        · simp [hc, hu, hpbk, hp]

theorem foldRemovals_frame (bk? : Option (Path → Path)) (cf uf : Path → Bool)
    (l : List Path) : ∀ (fs : FS) (p : Path),
    (∀ f ∈ l, p ≠ f ∧ ∀ bk, bk? = some bk → p ≠ bk f) →
    (l.foldl (applyRemoval bk? cf uf) fs) p = fs p := by
  induction l with
  | nil => intro fs p _; rfl
  | cons f l ih =>
    intro fs p h
    rw [List.foldl_cons,
      ih _ p (fun f' hf' => h f' (List.mem_cons.mpr (Or.inr hf')))]
    exact applyRemoval_frame bk? cf uf fs f p
      (h f (List.mem_cons_self _ _)).1 (h f (List.mem_cons_self _ _)).2

theorem processGroup_fs_frame (dryRun : Bool) (bk? : Option (Path → Path))
    (cf uf : Path → Bool) (st : CleanupStats × FS) (g : Group) (p : Path)
    (h : ∀ f ∈ g.files, p ≠ f ∧ ∀ bk, bk? = some bk → p ≠ bk f) :
    (processGroup dryRun bk? cf uf st g).2 p = st.2 p := by
  cases hsel : select_kept_file (statOf st.2) g.files with
  | none => simp [processGroup, hsel]
  | some kept =>
    simp only [processGroup, hsel]
    cases dryRun with
    | true => simp
    | false =>
      simp only [Bool.false_eq_true, if_false]
      apply foldRemovals_frame
      intro f hf
      exact h f (List.mem_filter.mp hf).1

theorem cleanupFold_fs_frame (dryRun : Bool) (bk? : Option (Path → Path))
    (cf uf : Path → Bool) (gs : List Group) :
    ∀ (st : CleanupStats × FS) (p : Path),
      (∀ g ∈ gs, ∀ f ∈ g.files, p ≠ f ∧ ∀ bk, bk? = some bk → p ≠ bk f) →
      (gs.foldl (processGroup dryRun bk? cf uf) st).2 p = st.2 p := by
  induction gs with
  | nil => intro st p _; rfl
  | cons g gs ih =>
    intro st p h
    rw [List.foldl_cons,
      ih _ p (fun g' hg' => h g' (List.mem_cons.mpr (Or.inr hg')))]
    exact processGroup_fs_frame dryRun bk? cf uf st g p
      (h g (List.mem_cons_self _ _))

theorem select_kept_file_congr (s1 s2 : Path → Option StatInfo) (l : List Path)
    (h : ∀ p ∈ l, s1 p = s2 p) :
    select_kept_file s1 l = select_kept_file s2 l := by
  unfold select_kept_file
  by_cases hl : l = []
  · simp [hl]
  · rw [if_neg hl, if_neg hl]
    have hmap : l.map (mkRec s1) = l.map (mkRec s2) := by
      apply List.map_congr_left
      intro p hp
      unfold mkRec
      rw [h p hp]
    rw [hmap]

theorem applyRemoval_effect (bk : Path → Path) (cf uf : Path → Bool)
    (fs : FS) (f : Path) (d : FSFile) (hfs : fs f = some d)
    (hneq : f ≠ bk f) :
    (cf f = true → applyRemoval (some bk) cf uf fs f = fs) ∧
    (cf f = false →
      (applyRemoval (some bk) cf uf fs f) (bk f) = some d ∧
      (uf f = true → (applyRemoval (some bk) cf uf fs f) f = some d) ∧
      (uf f = false → (applyRemoval (some bk) cf uf fs f) f = none)) := by
  refine ⟨?_, ?_⟩
  · intro hc
    simp [applyRemoval, hfs, hc]
  · intro hc
    refine ⟨?_, ?_, ?_⟩
    · by_cases hu : uf f
      · simp [applyRemoval, hfs, hc, hu]
      · simp [applyRemoval, hfs, hc, hu, Ne.symm hneq]
    · intro hu
      simp [applyRemoval, hfs, hc, hu, hneq]
    · intro hu
      simp [applyRemoval, hfs, hc, hu]

end ClearImg

namespace ClearImg

theorem foldRemovals_effect (bk : Path → Path) (cf uf : Path → Bool)
    (l : List Path) :
    ∀ (fs : FS) (f : Path) (d : FSFile), f ∈ l → l.Nodup → fs f = some d →
    (∀ x ∈ l, ∀ y ∈ l, bk x = bk y → x = y) →
    (∀ x ∈ l, ∀ y ∈ l, bk x ≠ y) →
    (cf f = true →
      (l.foldl (applyRemoval (some bk) cf uf) fs) f = some d ∧
      (l.foldl (applyRemoval (some bk) cf uf) fs) (bk f) = fs (bk f)) ∧
    (cf f = false →
      (l.foldl (applyRemoval (some bk) cf uf) fs) (bk f) = some d ∧
      (uf f = true → (l.foldl (applyRemoval (some bk) cf uf) fs) f = some d) ∧
      (uf f = false → (l.foldl (applyRemoval (some bk) cf uf) fs) f = none)) := by
  induction l with
  | nil =>
    intro fs f d hf
    cases hf
  | cons x l ih =>
    intro fs f d hf hnd hfs hinj hfresh
    rcases List.mem_cons.mp hf with rfl | hfl
    · have hneq : f ≠ bk f := fun h =>
        hfresh f (List.mem_cons_self _ _) f (List.mem_cons_self _ _) h.symm
      obtain ⟨e1, e2⟩ := applyRemoval_effect bk cf uf fs f d hfs hneq
      have hframe : ∀ (fs' : FS) (p : Path), p = f ∨ p = bk f →
          (l.foldl (applyRemoval (some bk) cf uf) fs') p = fs' p := by
        intro fs' p hp
        apply foldRemovals_frame
        intro f' hf'
        have hf'm : f' ∈ f :: l := List.mem_cons.mpr (Or.inr hf')
        have hxne : f ≠ f' := by
          intro h
          exact (List.nodup_cons.mp hnd).1 (by rw [h]; exact hf')
        refine ⟨?_, ?_⟩
        · rcases hp with h1 | h1
          · rw [h1]
            exact hxne
          · rw [h1]
            exact hfresh f (List.mem_cons_self _ _) f' hf'm
        · intro bk' hbk'
          have hbkeq : bk' = bk := by
            injection hbk' with hh
            exact hh.symm
          rcases hp with h1 | h1
          · rw [h1, hbkeq]
            exact fun h => hfresh f' hf'm f (List.mem_cons_self _ _) h.symm
          · rw [h1, hbkeq]
            intro h
            exact hxne (hinj f (List.mem_cons_self _ _) f' hf'm h)
      constructor
      · intro hc
        rw [List.foldl_cons, e1 hc]
        exact ⟨by rw [hframe fs f (Or.inl rfl)]; exact hfs,
          hframe fs (bk f) (Or.inr rfl)⟩
      · intro hc
        obtain ⟨g1, g2, g3⟩ := e2 hc
        rw [List.foldl_cons]
        refine ⟨?_, ?_, ?_⟩
        · rw [hframe _ (bk f) (Or.inr rfl)]
          exact g1
        · intro hu
          rw [hframe _ f (Or.inl rfl)]
          exact g2 hu
        · intro hu
          rw [hframe _ f (Or.inl rfl)]
          exact g3 hu
    · have hxf : x ≠ f := by
        intro h
        rw [h] at hnd
        exact (List.nodup_cons.mp hnd).1 hfl
      have hfm : f ∈ x :: l := List.mem_cons.mpr (Or.inr hfl)
      have hxm : x ∈ x :: l := List.mem_cons_self _ _
      have hfs1f : (applyRemoval (some bk) cf uf fs x) f = fs f := by
        apply applyRemoval_frame
        · exact fun h => hxf h.symm
        · intro bk' hbk'
          have hbkeq : bk' = bk := by
            injection hbk' with hh
            exact hh.symm
          rw [hbkeq]
          exact fun h => hfresh x hxm f hfm h.symm
      have hfs1bk : (applyRemoval (some bk) cf uf fs x) (bk f) = fs (bk f) := by
        apply applyRemoval_frame
        · exact hfresh f hfm x hxm
        · intro bk' hbk'
          have hbkeq : bk' = bk := by
            injection hbk' with hh
            exact hh.symm
          rw [hbkeq]
          intro h
          exact hxf (hinj x hxm f hfm h.symm)
      obtain ⟨i1, i2⟩ := ih (applyRemoval (some bk) cf uf fs x) f d hfl
        (List.nodup_cons.mp hnd).2 (by rw [hfs1f]; exact hfs)
        (fun a ha b hb => hinj a (List.mem_cons.mpr (Or.inr ha))
          b (List.mem_cons.mpr (Or.inr hb)))
        (fun a ha b hb => hfresh a (List.mem_cons.mpr (Or.inr ha))
          b (List.mem_cons.mpr (Or.inr hb)))
      rw [List.foldl_cons]
      constructor
      · intro hc
        obtain ⟨j1, j2⟩ := i1 hc
        exact ⟨j1, by rw [j2, hfs1bk]⟩
      · intro hc
        exact i2 hc

end ClearImg

namespace ClearImg

theorem allFiles_cons (g : Group) (gs : List Group) :
    allFiles (g :: gs) = g.files ++ allFiles gs := by
  simp [allFiles]

theorem mem_allFiles {gs : List Group} {f : Path} :
    f ∈ allFiles gs ↔ ∃ g ∈ gs, f ∈ g.files := by
  unfold allFiles
  rw [List.mem_flatten]
  constructor
  · rintro ⟨l, hl, hf⟩
    obtain ⟨g, hg, rfl⟩ := List.mem_map.mp hl
    exact ⟨g, hg, hf⟩
  · rintro ⟨g, hg, hf⟩
    exact ⟨g.files, List.mem_map.mpr ⟨g, hg, rfl⟩, hf⟩

theorem cleanup_apply_effect (bk : Path → Path) (cf uf : Path → Bool)
    (gs : List Group) :
    ∀ (st : CleanupStats × FS) (fs0 : FS),
      (∀ p, (p ∈ allFiles gs ∨ ∃ q ∈ allFiles gs, p = bk q) → st.2 p = fs0 p) →
      gs.Pairwise disjGroups →
      (∀ g ∈ gs, g.files.Nodup) →
      (∀ x ∈ allFiles gs, ∀ y ∈ allFiles gs, bk x = bk y → x = y) →
      (∀ x ∈ allFiles gs, ∀ y ∈ allFiles gs, bk x ≠ y) →
      ∀ g ∈ gs, ∀ f ∈ removalsOf fs0 g, ∀ d, fs0 f = some d →
      (cf f = true →
        (gs.foldl (processGroup false (some bk) cf uf) st).2 f = some d ∧
        (gs.foldl (processGroup false (some bk) cf uf) st).2 (bk f) =
          fs0 (bk f)) ∧
      (cf f = false →
        (gs.foldl (processGroup false (some bk) cf uf) st).2 (bk f) = some d ∧
        (uf f = true →
          (gs.foldl (processGroup false (some bk) cf uf) st).2 f = some d) ∧
        (uf f = false →
          (gs.foldl (processGroup false (some bk) cf uf) st).2 f = none)) := by
  induction gs with
  | nil =>
    intro st fs0 _ _ _ _ _ g hg
    cases hg
  | cons g0 rest ih =>
    intro st fs0 hagree hdisj hnd hinj hfresh g hg f hfrem d hfd
    have hsubF : ∀ p, p ∈ allFiles rest → p ∈ allFiles (g0 :: rest) := by
      intro p hp
      rw [allFiles_cons]
      exact List.mem_append.mpr (Or.inr hp)
    have hg0F : ∀ p, p ∈ g0.files → p ∈ allFiles (g0 :: rest) := by
      intro p hp
      rw [allFiles_cons]
      exact List.mem_append.mpr (Or.inl hp)
    have hselg0 : select_kept_file (statOf st.2) g0.files = keptOf fs0 g0 := by
      unfold keptOf
      apply select_kept_file_congr
      intro p hp
      unfold statOf
      rw [hagree p (Or.inl (hg0F p hp))]
    rcases List.mem_cons.mp hg with hgg0 | hgrest
    · subst hgg0
      unfold removalsOf at hfrem
      rcases hk : keptOf fs0 g with _ | kept
      · rw [hk] at hfrem
        cases hfrem
      · rw [hk] at hfrem
        have hffiles : f ∈ g.files := (List.mem_filter.mp hfrem).1
        rw [List.foldl_cons]
        have hstep : (processGroup false (some bk) cf uf st g).2 =
            (g.files.filter (fun x => x ≠ kept)).foldl
              (applyRemoval (some bk) cf uf) st.2 := by
          simp [processGroup, hselg0, hk]
        have hl := foldRemovals_effect bk cf uf
          (g.files.filter (fun x => x ≠ kept)) st.2 f d hfrem
          ((hnd g (List.mem_cons_self _ _)).filter _)
          (by rw [hagree f (Or.inl (hg0F f hffiles))]; exact hfd)
          (fun a ha b hb => hinj a (hg0F a (List.mem_filter.mp ha).1)
            b (hg0F b (List.mem_filter.mp hb).1))
          (fun a ha b hb => hfresh a (hg0F a (List.mem_filter.mp ha).1)
            b (hg0F b (List.mem_filter.mp hb).1))
        have hcondf : ∀ g' ∈ rest, ∀ f' ∈ g'.files,
            f ≠ f' ∧ ∀ bk', (some bk : Option (Path → Path)) = some bk' →
              f ≠ bk' f' := by
          intro g' hg' f' hf'
          have hfnotg' : f ∉ g'.files :=
            (List.pairwise_cons.mp hdisj).1 g' hg' f hffiles
          constructor
          · intro h
            exact hfnotg' (by rw [h]; exact hf')
          · intro bk' hbk'
            have hbkeq : bk' = bk := by
              injection hbk' with hh
              exact hh.symm
            rw [hbkeq]
            exact fun h => hfresh f'
              (hsubF f' (mem_allFiles.mpr ⟨g', hg', hf'⟩))
              f (hg0F f hffiles) h.symm
        have hcondbk : ∀ g' ∈ rest, ∀ f' ∈ g'.files,
            bk f ≠ f' ∧ ∀ bk', (some bk : Option (Path → Path)) = some bk' →
              bk f ≠ bk' f' := by
          intro g' hg' f' hf'
          have hfnotg' : f ∉ g'.files :=
            (List.pairwise_cons.mp hdisj).1 g' hg' f hffiles
          constructor
          · exact hfresh f (hg0F f hffiles)
              f' (hsubF f' (mem_allFiles.mpr ⟨g', hg', hf'⟩))
          · intro bk' hbk'
            have hbkeq : bk' = bk := by
              injection hbk' with hh
              exact hh.symm
            rw [hbkeq]
            intro h
            have := hinj f (hg0F f hffiles)
              f' (hsubF f' (mem_allFiles.mpr ⟨g', hg', hf'⟩)) h
            exact hfnotg' (by rw [this]; exact hf')
        have hframeR : ∀ p, (∀ g' ∈ rest, ∀ f' ∈ g'.files,
            p ≠ f' ∧ ∀ bk', (some bk : Option (Path → Path)) = some bk' →
              p ≠ bk' f') →
            (rest.foldl (processGroup false (some bk) cf uf)
              (processGroup false (some bk) cf uf st g)).2 p =
            (processGroup false (some bk) cf uf st g).2 p :=
          fun p hcond => cleanupFold_fs_frame false (some bk) cf uf rest _ p hcond
        constructor
        · intro hc
          obtain ⟨j1, j2⟩ := hl.1 hc
          constructor
          · rw [hframeR f hcondf, hstep]
            exact j1
          · rw [hframeR (bk f) hcondbk, hstep, j2]
            exact hagree (bk f) (Or.inr ⟨f, hg0F f hffiles, rfl⟩)
        · intro hc
          obtain ⟨j1, j2, j3⟩ := hl.2 hc
          refine ⟨?_, ?_, ?_⟩
          · rw [hframeR (bk f) hcondbk, hstep]
            exact j1
          · intro hu
            rw [hframeR f hcondf, hstep]
            exact j2 hu
          · intro hu
            rw [hframeR f hcondf, hstep]
            exact j3 hu
    · rw [List.foldl_cons]
      have hagree' : ∀ p, (p ∈ allFiles rest ∨ ∃ q ∈ allFiles rest, p = bk q) →
          (processGroup false (some bk) cf uf st g0).2 p = fs0 p := by
        intro p hp
        have hpg0 : ∀ x ∈ g0.files,
            p ≠ x ∧ ∀ bk', (some bk : Option (Path → Path)) = some bk' →
              p ≠ bk' x := by
          intro x hx
          rcases hp with hpF | ⟨q, hq, rfl⟩
          · obtain ⟨g', hg', hpfile⟩ := mem_allFiles.mp hpF
            have hxnotg' : x ∉ g'.files :=
              (List.pairwise_cons.mp hdisj).1 g' hg' x hx
            constructor
            · intro h
              exact hxnotg' (by rw [← h]; exact hpfile)
            · intro bk' hbk'
              have hbkeq : bk' = bk := by
                injection hbk' with hh
                exact hh.symm
              rw [hbkeq]
              exact fun h => hfresh x (hg0F x hx)
                p (hsubF p hpF) h.symm
          · constructor
            · exact hfresh q (hsubF q hq) x (hg0F x hx)
            · intro bk' hbk'
              have hbkeq : bk' = bk := by
                injection hbk' with hh
                exact hh.symm
              rw [hbkeq]
              intro h
              have hqx := hinj q (hsubF q hq) x (hg0F x hx) h
              obtain ⟨g', hg', hqfile⟩ := mem_allFiles.mp hq
              have hxnotg' : x ∉ g'.files :=
                (List.pairwise_cons.mp hdisj).1 g' hg' x hx
              exact hxnotg' (by rw [← hqx]; exact hqfile)
        rw [processGroup_fs_frame false (some bk) cf uf st g0 p hpg0]
        apply hagree
        rcases hp with hpF | ⟨q, hq, rfl⟩
        · exact Or.inl (hsubF p hpF)
        · exact Or.inr ⟨q, hsubF q hq, rfl⟩
      exact ih (processGroup false (some bk) cf uf st g0) fs0 hagree'
        (List.pairwise_cons.mp hdisj).2
        (fun g' h => hnd g' (List.mem_cons.mpr (Or.inr h)))
        (fun a ha b hb => hinj a (hsubF a ha) b (hsubF b hb))
        (fun a ha b hb => hfresh a (hsubF a ha) b (hsubF b hb))
        g hgrest f hfrem d hfd

end ClearImg

namespace ClearImg

/-- C2: in apply mode with a backup root, for every file selected for
removal that exists on disk: if the backup copy fails the file is left
in place and no backup is written; if the backup succeeds, the backup
path holds a byte-identical copy of the file's pre-deletion record, and
the file is deleted exactly when its `unlink` does not fail.  These
per-file outcomes hold for every file of every group independently of
the other files' failures — a failure never aborts the group or the
run. -/
theorem cleanup_duplicates_backup_policy (bk : Path → Path)
    (cf uf : Path → Bool) (fs0 : FS) (groups : List Group)
    (hdisj : groups.Pairwise disjGroups)
    (hnd : ∀ g ∈ groups, g.files.Nodup)
    (hinj : ∀ x ∈ allFiles groups, ∀ y ∈ allFiles groups, bk x = bk y → x = y)
    (hfresh : ∀ x ∈ allFiles groups, ∀ y ∈ allFiles groups, bk x ≠ y) :
    ∀ g ∈ groups, ∀ f ∈ removalsOf fs0 g, ∀ d, fs0 f = some d →
      (cf f = true →
        (cleanup_duplicates false (some bk) cf uf fs0 groups).2 f = some d ∧
        (cleanup_duplicates false (some bk) cf uf fs0 groups).2 (bk f) =
          fs0 (bk f)) ∧
      (cf f = false →
        (cleanup_duplicates false (some bk) cf uf fs0 groups).2 (bk f) =
          some d ∧
        (uf f = true →
          (cleanup_duplicates false (some bk) cf uf fs0 groups).2 f = some d) ∧
        (uf f = false →
          (cleanup_duplicates false (some bk) cf uf fs0 groups).2 f = none)) := by
  unfold cleanup_duplicates
  exact cleanup_apply_effect bk cf uf groups _ fs0 (fun p _ => rfl)
    hdisj hnd hinj hfresh

/-- Witness for C2: with no failures, `b` of the group `{a, b}` is
backed up byte-identically at its mirrored path and then deleted. -/
theorem cleanup_duplicates_backup_policy_witness :
    (cleanup_duplicates false (some fxBk) (fun _ => false) (fun _ => false)
        fxFS [fxGroupAB]).2 (fxBk "b") = some ⟨[2], 5, 2, 2⟩ ∧
    (cleanup_duplicates false (some fxBk) (fun _ => false) (fun _ => false)
        fxFS [fxGroupAB]).2 "b" = none := by
  have h := cleanup_duplicates_backup_policy fxBk (fun _ => false)
    (fun _ => false) fxFS [fxGroupAB] (by decide) (by decide) (by decide)
    (by decide) fxGroupAB (by decide) "b" (by decide) ⟨[2], 5, 2, 2⟩ (by decide)
  exact ⟨(h.2 rfl).1, (h.2 rfl).2.2 rfl⟩

/-! ### C3: reclaimed-space accounting in apply mode -/

theorem cleanup_apply_space_aux (bk? : Option (Path → Path))
    (cf uf : Path → Bool) (gs : List Group) :
    ∀ (st : CleanupStats × FS) (fs0 : FS),
      (∀ g ∈ gs, ∀ f ∈ g.files, st.2 f = fs0 f) →
      gs.Pairwise disjGroups →
      (∀ bk, bk? = some bk →
        ∀ x ∈ allFiles gs, ∀ y ∈ allFiles gs, bk x ≠ y) →
      (gs.foldl (processGroup false bk? cf uf) st).1.space_to_save =
        st.1.space_to_save + (gs.map (groupSpace fs0)).sum := by
  induction gs with
  | nil =>
    intro st fs0 _ _ _
    simp
  | cons g rest ih =>
    intro st fs0 hagree hdisj hfresh
    have hsubF : ∀ p, p ∈ allFiles rest → p ∈ allFiles (g :: rest) := by
      intro p hp
      rw [allFiles_cons]
      exact List.mem_append.mpr (Or.inr hp)
    have hgF : ∀ p, p ∈ g.files → p ∈ allFiles (g :: rest) := by
      intro p hp
      rw [allFiles_cons]
      exact List.mem_append.mpr (Or.inl hp)
    have hsel : select_kept_file (statOf st.2) g.files = keptOf fs0 g := by
      unfold keptOf
      apply select_kept_file_congr
      intro p hp
      unfold statOf
      rw [hagree g (List.mem_cons_self _ _) p hp]
    have hstats : (processGroup false bk? cf uf st g).1.space_to_save =
        st.1.space_to_save + groupSpace fs0 g := by
      cases hk : keptOf fs0 g with
      | none => simp [processGroup, hsel, hk, groupSpace, removalsOf]
      | some kept =>
        have hsum : (g.files.filter (fun x => !decide (x = kept))).map (sizeAt st.2) =
            (g.files.filter (fun x => !decide (x = kept))).map (sizeAt fs0) := by
          apply List.map_congr_left
          intro x hx
          unfold sizeAt
          rw [hagree g (List.mem_cons_self _ _) x (List.mem_filter.mp hx).1]
        simp [processGroup, hsel, hk, groupSpace, removalsOf, hsum]
    have hagree' : ∀ g' ∈ rest, ∀ f ∈ g'.files,
        (processGroup false bk? cf uf st g).2 f = fs0 f := by
      intro g' hg' f hf
      have hfng : f ∉ g.files → True := fun _ => trivial
      rw [processGroup_fs_frame]
      · exact hagree g' (List.mem_cons.mpr (Or.inr hg')) f hf
      · intro x hx
        have hxnotg' : x ∉ g'.files :=
          (List.pairwise_cons.mp hdisj).1 g' hg' x hx
        constructor
        · intro h
          exact hxnotg' (by rw [← h]; exact hf)
        · intro bk hbk
          exact fun h => hfresh bk hbk x (hgF x hx)
            f (hsubF f (mem_allFiles.mpr ⟨g', hg', hf⟩)) h.symm
    rw [List.foldl_cons, ih _ fs0 hagree' (List.pairwise_cons.mp hdisj).2
      (fun bk hbk a ha b hb =>
        hfresh bk hbk a (hsubF a ha) b (hsubF b hb)), hstats]
    simp [Nat.add_assoc]

/-- Counterexample for C3: backing up `b` fails, so `b` is never removed
from disk (it is still present afterwards and nothing was actually
deleted), yet `space_to_save` still counts its 5 bytes and
`removed_files` still lists it. -/
theorem cleanup_space_counts_failed_removals :
    (cleanup_duplicates false (some fxBk) (fun _ => true) (fun _ => false)
        fxFS [fxGroupAB]).1.space_to_save = 5 ∧
    (cleanup_duplicates false (some fxBk) (fun _ => true) (fun _ => false)
        fxFS [fxGroupAB]).2 "b" = some ⟨[2], 5, 2, 2⟩ ∧
    (cleanup_duplicates false (some fxBk) (fun _ => true) (fun _ => false)
        fxFS [fxGroupAB]).1.removed_files = ["b"] := by
  refine ⟨by decide, by decide, by decide⟩

/-- C3 (amended): in apply mode the reclaimed-space total equals the sum
over all groups of the pre-run sizes of the files selected for removal,
regardless of which backups or deletions fail — identical to the
dry-run projection. -/
theorem cleanup_duplicates_apply_space (bk? : Option (Path → Path))
    (cf uf : Path → Bool) (fs0 : FS) (groups : List Group)
    (hdisj : groups.Pairwise disjGroups)
    (hfresh : ∀ bk, bk? = some bk →
      ∀ x ∈ allFiles groups, ∀ y ∈ allFiles groups, bk x ≠ y) :
    (cleanup_duplicates false bk? cf uf fs0 groups).1.space_to_save =
      (groups.map (groupSpace fs0)).sum := by
  unfold cleanup_duplicates
  rw [cleanup_apply_space_aux bk? cf uf groups _ fs0
    (fun _ _ _ _ => rfl) hdisj hfresh]
  simp

/-- Witness for C3 (amended): the failed-backup run still reports the
full projected figure. -/
theorem cleanup_duplicates_apply_space_witness :
    (cleanup_duplicates false (some fxBk) (fun _ => true) (fun _ => false)
        fxFS [fxGroupAB]).1.space_to_save =
      ([fxGroupAB].map (groupSpace fxFS)).sum :=
  cleanup_duplicates_apply_space (some fxBk) (fun _ => true) (fun _ => false)
    fxFS [fxGroupAB] (by decide)
    (by
      intro bk hbk
      injection hbk with hh
      subst hh
      decide)

end ClearImg
